import Mathlib

/-!
Verification of the document-processor core (text normalizer, slice
extraction and OCR-fallback pipeline) against its natural-language
specification.

The Python source is shallowly embedded:

* `clean_pdf_glyphs` (src/app/utils/pdf_helpers.py) works in three steps:
  `glyph_pattern.sub(' ', text)`, then `re.sub(r'[ \t]+', ' ', ...)`,
  then `.strip()`.  Strings are modelled as `List Char`; the regex
  `(?i)glyph<(?:c=\d+,font=/[A-Z0-9]+\+[A-Za-z0-9-]+|\d+)>` is modelled
  by an explicit matcher.  Because every quantified class in the pattern
  is immediately followed by a required delimiter that the class cannot
  contain, Python's backtracking regex engine accepts exactly the greedy
  derivations, so the deterministic matcher below is faithful.
  Character classes are modelled over ASCII (Python's `re` would also
  case-fold or accept some non-ASCII code points; no claim depends on
  those).

* The docling document tree is modelled by `DLDoc`: the page numbers
  present in `document.pages` plus the `(item, level)` sequence produced
  by `iterate_items`.  Geometry, provenance boxes and image payloads are
  modelled only to the extent a claim mentions them (presence booleans);
  float page sizes and bounding boxes are not referenced by any claim.
-/

namespace DocProc

/-! ## Character classes of the glyph pattern and of Python whitespace -/

/-- Class `\d` of the pattern, ASCII digits. -/
def isDigitA (c : Char) : Bool := decide (48 ≤ c.toNat ∧ c.toNat ≤ 57)

/-- ASCII uppercase letter. -/
def isUpperA (c : Char) : Bool := decide (65 ≤ c.toNat ∧ c.toNat ≤ 90)

/-- ASCII lowercase letter. -/
def isLowerA (c : Char) : Bool := decide (97 ≤ c.toNat ∧ c.toNat ≤ 122)

/-- Class `[A-Z0-9]` under the `(?i)` flag: ASCII letters and digits. -/
def isAlnumA (c : Char) : Bool := isDigitA c || isUpperA c || isLowerA c

/-- Class `[A-Za-z0-9-]`: ASCII letters, digits and the hyphen. -/
def isAlnumHyphenA (c : Char) : Bool := isAlnumA c || decide (c.toNat = 45)

/-- Class `[ \t]` of the collapsing step: space or horizontal tab. -/
def isBlankA (c : Char) : Bool := decide (c.toNat = 32 ∨ c.toNat = 9)

/-- Whitespace as removed by Python `str.strip()` (ASCII part):
space, tab, newline, carriage return, vertical tab, form feed. -/
def isWsA (c : Char) : Bool :=
  decide (c.toNat = 32 ∨ c.toNat = 9 ∨ c.toNat = 10 ∨ c.toNat = 13 ∨
          c.toNat = 11 ∨ c.toNat = 12)

/-- ASCII lowering, for the `(?i)` flag. -/
def lowerA (c : Char) : Char :=
  if isUpperA c then Char.ofNat (c.toNat + 32) else c

/-! ## The glyph-pattern matcher -/

/-- Consume one exact character. -/
def expectCh (ch : Char) : List Char → Option (List Char)
  | c :: cs => if c = ch then some cs else none
  | [] => none

/-- Consume one character up to ASCII case (`ch` is given lowercase). -/
def expectCI (ch : Char) : List Char → Option (List Char)
  | c :: cs => if lowerA c = ch then some cs else none
  | [] => none

/-- Consume a non-empty greedy run of characters satisfying `f`
(a `+`-quantified class). -/
def span1 (f : Char → Bool) : List Char → Option (List Char)
  | c :: cs => if f c then some (cs.dropWhile f) else none
  | [] => none

/-- Alternation branch `c=\d+,font=/[A-Z0-9]+\+[A-Za-z0-9-]+`. -/
def matchBody1 (cs : List Char) : Option (List Char) :=
  (expectCI 'c' cs).bind fun s1 =>
  (expectCh '=' s1).bind fun s2 =>
  (span1 isDigitA s2).bind fun s3 =>
  (expectCh ',' s3).bind fun s4 =>
  (expectCI 'f' s4).bind fun s5 =>
  (expectCI 'o' s5).bind fun s6 =>
  (expectCI 'n' s6).bind fun s7 =>
  (expectCI 't' s7).bind fun s8 =>
  (expectCh '=' s8).bind fun s9 =>
  (expectCh '/' s9).bind fun s10 =>
  (span1 isAlnumA s10).bind fun s11 =>
  (expectCh '+' s11).bind fun s12 =>
  span1 isAlnumHyphenA s12

/-- Alternation branch `\d+`. -/
def matchBody2 (cs : List Char) : Option (List Char) :=
  span1 isDigitA cs

/-- Match `glyph_pattern` at the head of the list; on success return the
remaining characters after the match. -/
def matchGlyphAt (cs : List Char) : Option (List Char) :=
  (expectCI 'g' cs).bind fun s1 =>
  (expectCI 'l' s1).bind fun s2 =>
  (expectCI 'y' s2).bind fun s3 =>
  (expectCI 'p' s3).bind fun s4 =>
  (expectCI 'h' s4).bind fun s5 =>
  (expectCh '<' s5).bind fun s6 =>
  (match matchBody1 s6 with
   | some s => some s
   | none => matchBody2 s6).bind fun s7 =>
  expectCh '>' s7

/-- Left-to-right non-overlapping substitution of every pattern match by
a single space, as `glyph_pattern.sub(' ', text)` performs; `fuel`
bounds the recursion and is set to the length of the list. -/
def glyphSubF : Nat → List Char → List Char
  | 0, cs => cs
  | _ + 1, [] => []
  | n + 1, c :: cs =>
    match matchGlyphAt (c :: cs) with
    | some rest => ' ' :: glyphSubF n rest
    | none => c :: glyphSubF n cs

/-- First step of `clean_pdf_glyphs`: `glyph_pattern.sub(' ', text)`. -/
def glyphSub (cs : List Char) : List Char := glyphSubF cs.length cs

/-- Second step: `re.sub(r'[ \t]+', ' ', ...)` — every maximal run of
spaces/tabs becomes a single space.  Written structurally: within a run
only the last blank survives, as a space. -/
def collapseBlanks : List Char → List Char
  | [] => []
  | [c] => if isBlankA c then [' '] else [c]
  | c :: d :: rest =>
    if isBlankA c && isBlankA d then collapseBlanks (d :: rest)
    else (if isBlankA c then ' ' else c) :: collapseBlanks (d :: rest)

/-- Third step: Python `str.strip()` — drop leading and trailing
whitespace. -/
def pyStrip (cs : List Char) : List Char :=
  ((cs.dropWhile isWsA).reverse.dropWhile isWsA).reverse

/-- The composed normalizer on character lists. -/
def cleanList (cs : List Char) : List Char :=
  pyStrip (collapseBlanks (glyphSub cs))

/-- Embedding of `clean_pdf_glyphs` (src/app/utils/pdf_helpers.py). -/
def cleanPdfGlyphs (s : String) : String := String.mk (cleanList s.data)

example : cleanPdfGlyphs "a glyph<123> b" = "a b" := by decide
example : cleanPdfGlyphs "a glyph<c=13,font=/AB12+Arial-Bold> b" = "a b" := by
  decide
example : cleanPdfGlyphs "  a\t\tb \n c  " = "a b \n c" := by decide
example : cleanPdfGlyphs "glyph<1>\nab" = "ab" := by decide
example : cleanPdfGlyphs "glyph<c=1>" = "glyph<c=1>" := by decide

/-! ## Shape of the strings matched by the glyph pattern -/

/-- Strings matched by the first alternation branch, without the
surrounding `glyph<` and `>`. -/
def Body1Shape (b : List Char) : Prop :=
  ∃ c ds f o n t a1 a2,
    lowerA c = 'c' ∧ ds ≠ [] ∧ (∀ a ∈ ds, isDigitA a = true) ∧
    lowerA f = 'f' ∧ lowerA o = 'o' ∧ lowerA n = 'n' ∧ lowerA t = 't' ∧
    a1 ≠ [] ∧ (∀ a ∈ a1, isAlnumA a = true) ∧
    a2 ≠ [] ∧ (∀ a ∈ a2, isAlnumHyphenA a = true) ∧
    b = c :: '=' :: (ds ++ ',' :: f :: o :: n :: t :: '=' :: '/' ::
          (a1 ++ '+' :: a2))

/-- Strings matched by the second alternation branch. -/
def Body2Shape (b : List Char) : Prop :=
  b ≠ [] ∧ ∀ a ∈ b, isDigitA a = true

/-- Exactly the strings matched by the whole glyph pattern. -/
def TokShape (q : List Char) : Prop :=
  ∃ g l y p h b,
    lowerA g = 'g' ∧ lowerA l = 'l' ∧ lowerA y = 'y' ∧
    lowerA p = 'p' ∧ lowerA h = 'h' ∧
    (Body1Shape b ∨ Body2Shape b) ∧
    q = g :: l :: y :: p :: h :: '<' :: (b ++ ['>'])

lemma expectCh_eq_some {ch : Char} {cs r : List Char}
    (h : expectCh ch cs = some r) : cs = ch :: r := by
  cases cs with
  | nil => simp [expectCh] at h
  | cons c cs =>
    simp only [expectCh] at h
    split at h
    · simp_all
    · simp at h

lemma expectCI_eq_some {ch : Char} {cs r : List Char}
    (h : expectCI ch cs = some r) : ∃ c, cs = c :: r ∧ lowerA c = ch := by
  cases cs with
  | nil => simp [expectCI] at h
  | cons c cs =>
    simp only [expectCI] at h
    split at h
    · exact ⟨c, by simp_all, by assumption⟩
    · simp at h

lemma span1_eq_some {f : Char → Bool} {cs r : List Char}
    (h : span1 f cs = some r) :
    ∃ q, cs = q ++ r ∧ q ≠ [] ∧ ∀ a ∈ q, f a = true := by
  cases cs with
  | nil => simp [span1] at h
  | cons c cs =>
    simp only [span1] at h
    split at h
    · refine ⟨c :: cs.takeWhile f, ?_, by simp, ?_⟩
      · simp only [Option.some.injEq] at h
        simp [← h, List.takeWhile_append_dropWhile]
      · intro a ha
        rcases List.mem_cons.mp ha with rfl | ha
        · assumption
        · exact List.mem_takeWhile_imp ha
    · simp at h

lemma expectCI_cons {ch c : Char} {t : List Char} (h : lowerA c = ch) :
    expectCI ch (c :: t) = some t := by simp [expectCI, h]

lemma dropWhile_append_all {f : Char → Bool} {q x : List Char}
    (h : ∀ a ∈ q, f a = true) : (q ++ x).dropWhile f = x.dropWhile f := by
  induction q with
  | nil => rfl
  | cons a q ih =>
    have ha := h a (by simp)
    simp only [List.cons_append, List.dropWhile_cons, ha, if_true]
    exact ih fun b hb => h b (by simp [hb])

lemma span1_append {f : Char → Bool} {q : List Char} {d : Char}
    {t : List Char} (hq : ∀ a ∈ q, f a = true) (hne : q ≠ [])
    (hd : f d = false) : span1 f (q ++ d :: t) = some (d :: t) := by
  cases q with
  | nil => exact absurd rfl hne
  | cons a q =>
    have ha := hq a (by simp)
    simp only [List.cons_append, span1, ha, if_true, Option.some.injEq]
    rw [dropWhile_append_all fun b hb => hq b (by simp [hb])]
    simp [List.dropWhile_cons, hd]

/-- The alternation of the two branches, as the matcher evaluates it. -/
def matchBody (cs : List Char) : Option (List Char) :=
  match matchBody1 cs with
  | some s => some s
  | none => matchBody2 cs

lemma matchGlyphAt_eq_bind (cs : List Char) :
    matchGlyphAt cs =
      (expectCI 'g' cs).bind fun s1 =>
      (expectCI 'l' s1).bind fun s2 =>
      (expectCI 'y' s2).bind fun s3 =>
      (expectCI 'p' s3).bind fun s4 =>
      (expectCI 'h' s4).bind fun s5 =>
      (expectCh '<' s5).bind fun s6 =>
      (matchBody s6).bind fun s7 =>
      expectCh '>' s7 := rfl

lemma matchBody1_sound {cs r : List Char} (h : matchBody1 cs = some r) :
    ∃ b, Body1Shape b ∧ cs = b ++ r := by
  simp only [matchBody1, Option.bind_eq_some] at h
  obtain ⟨s1, h1, s2, h2, s3, h3, s4, h4, s5, h5, s6, h6, s7, h7, s8, h8,
    s9, h9, s10, h10, s11, h11, s12, h12, h13⟩ := h
  obtain ⟨c, rfl, hc⟩ := expectCI_eq_some h1
  have e2 := expectCh_eq_some h2
  obtain ⟨ds, e3, hds, hdsd⟩ := span1_eq_some h3
  have e4 := expectCh_eq_some h4
  obtain ⟨f, e5, hf⟩ := expectCI_eq_some h5
  obtain ⟨o, e6, ho⟩ := expectCI_eq_some h6
  obtain ⟨n, e7, hn⟩ := expectCI_eq_some h7
  obtain ⟨t, e8, ht⟩ := expectCI_eq_some h8
  have e9 := expectCh_eq_some h9
  have e10 := expectCh_eq_some h10
  obtain ⟨a1, e11, ha1, ha1c⟩ := span1_eq_some h11
  have e12 := expectCh_eq_some h12
  obtain ⟨a2, e13, ha2, ha2c⟩ := span1_eq_some h13
  refine ⟨c :: '=' :: (ds ++ ',' :: f :: o :: n :: t :: '=' :: '/' ::
      (a1 ++ '+' :: a2)),
    ⟨c, ds, f, o, n, t, a1, a2, hc, hds, hdsd, hf, ho, hn, ht,
      ha1, ha1c, ha2, ha2c, rfl⟩, ?_⟩
  subst e2 e3 e4 e5 e6 e7 e8 e9 e10 e11 e12 e13
  simp

lemma matchBody2_sound {cs r : List Char} (h : matchBody2 cs = some r) :
    ∃ b, Body2Shape b ∧ cs = b ++ r := by
  obtain ⟨q, rfl, hne, hall⟩ := span1_eq_some h
  exact ⟨q, ⟨hne, hall⟩, rfl⟩

lemma matchBody_sound {cs r : List Char} (h : matchBody cs = some r) :
    ∃ b, (Body1Shape b ∨ Body2Shape b) ∧ cs = b ++ r := by
  unfold matchBody at h
  split at h
  · rename_i s hs
    obtain rfl : s = r := Option.some.inj h
    obtain ⟨b, hb, rfl⟩ := matchBody1_sound hs
    exact ⟨b, Or.inl hb, rfl⟩
  · obtain ⟨b, hb, rfl⟩ := matchBody2_sound h
    exact ⟨b, Or.inr hb, rfl⟩

/-- Soundness of the matcher: a successful match peels a token of the
characterized shape off the front. -/
lemma matchGlyphAt_sound {cs r : List Char} (h : matchGlyphAt cs = some r) :
    ∃ q, TokShape q ∧ cs = q ++ r := by
  rw [matchGlyphAt_eq_bind] at h
  simp only [Option.bind_eq_some] at h
  obtain ⟨s1, h1, s2, h2, s3, h3, s4, h4, s5, h5, s6, h6, s7, h7, h8⟩ := h
  obtain ⟨g, rfl, hg⟩ := expectCI_eq_some h1
  obtain ⟨l, e2, hl⟩ := expectCI_eq_some h2
  obtain ⟨y, e3, hy⟩ := expectCI_eq_some h3
  obtain ⟨p, e4, hp⟩ := expectCI_eq_some h4
  obtain ⟨h', e5, hh⟩ := expectCI_eq_some h5
  have e6 := expectCh_eq_some h6
  obtain ⟨b, hb, e7⟩ := matchBody_sound h7
  have e8 := expectCh_eq_some h8
  refine ⟨g :: l :: y :: p :: h' :: '<' :: (b ++ ['>']),
    ⟨g, l, y, p, h', b, hg, hl, hy, hp, hh, hb, rfl⟩, ?_⟩
  subst e2 e3 e4 e5 e6 e7 e8
  simp

/-! ## Character facts -/

lemma lowerA_upper_or_eq {c ch : Char} (h : lowerA c = ch) :
    isUpperA c = true ∨ c = ch := by
  unfold lowerA at h
  split at h
  · left; assumption
  · right; exact h

lemma toNat_ge_of_upper {c : Char} (h : isUpperA c = true) :
    65 ≤ c.toNat := by
  simp [isUpperA] at h; exact h.1

lemma char_ne_of_toNat_ne {c d : Char} (h : c.toNat ≠ d.toNat) : c ≠ d :=
  fun e => h (congrArg Char.toNat e)

lemma ws_false_of_ge {c : Char} (h : 33 ≤ c.toNat) : isWsA c = false := by
  simp [isWsA]; omega

lemma ws_false_of_lowerA {c ch : Char} (hc : lowerA c = ch)
    (hch : 33 ≤ ch.toNat) : isWsA c = false := by
  rcases lowerA_upper_or_eq hc with h | rfl
  · exact ws_false_of_ge (le_trans (by norm_num) (toNat_ge_of_upper h))
  · exact ws_false_of_ge hch

lemma ws_false_of_digit {c : Char} (h : isDigitA c = true) :
    isWsA c = false := by
  simp [isDigitA] at h; exact ws_false_of_ge (by omega)

lemma ws_false_of_alnum {c : Char} (h : isAlnumA c = true) :
    isWsA c = false := by
  simp [isAlnumA, isDigitA, isUpperA, isLowerA] at h
  exact ws_false_of_ge (by omega)

lemma ws_false_of_alnumHyphen {c : Char} (h : isAlnumHyphenA c = true) :
    isWsA c = false := by
  simp only [isAlnumHyphenA, Bool.or_eq_true] at h
  rcases h with h | h
  · exact ws_false_of_alnum h
  · simp at h; exact ws_false_of_ge (by omega)

lemma ws_of_blank {c : Char} (h : isBlankA c = true) : isWsA c = true := by
  simp [isBlankA] at h; simp [isWsA]; omega

lemma blank_false_of_ws_false {c : Char} (h : isWsA c = false) :
    isBlankA c = false := by
  cases hb : isBlankA c
  · rfl
  · rw [ws_of_blank hb] at h; cases h

lemma lowerA_digit {c : Char} (h : isDigitA c = true) : lowerA c = c := by
  simp [isDigitA] at h
  unfold lowerA
  rw [if_neg]
  simp [isUpperA]; omega

/-! ## Completeness of the matcher on token-shaped strings -/

lemma expectCh_cons (ch : Char) (t : List Char) :
    expectCh ch (ch :: t) = some t := by simp [expectCh]

lemma matchBody1_complete {b t : List Char} (hb : Body1Shape b) :
    matchBody1 (b ++ '>' :: t) = some ('>' :: t) := by
  obtain ⟨c, ds, f, o, n, t', a1, a2, hc, hds, hdsd, hf, ho, hn, ht,
    ha1, ha1c, ha2, ha2c, rfl⟩ := hb
  have d1 : isDigitA ',' = false := by decide
  have d2 : isAlnumA '+' = false := by decide
  have d3 : isAlnumHyphenA '>' = false := by decide
  unfold matchBody1
  simp only [List.cons_append, List.append_assoc, List.nil_append,
    Option.some_bind, expectCI_cons hc, expectCh_cons,
    span1_append hdsd hds d1, expectCI_cons hf, expectCI_cons ho,
    expectCI_cons hn, expectCI_cons ht, span1_append ha1c ha1 d2,
    span1_append ha2c ha2 d3]

lemma matchBody1_none_of_digits {b x : List Char} (hne : b ≠ [])
    (hd : ∀ a ∈ b, isDigitA a = true) : matchBody1 (b ++ x) = none := by
  cases b with
  | nil => exact absurd rfl hne
  | cons d b =>
    have hdd := hd d (by simp)
    have : lowerA d ≠ 'c' := by
      rw [lowerA_digit hdd]
      refine char_ne_of_toNat_ne ?_
      simp [isDigitA] at hdd
      have : ('c').toNat = 99 := by decide
      omega
    unfold matchBody1
    simp [expectCI, this]

lemma matchBody_complete {b t : List Char}
    (hb : Body1Shape b ∨ Body2Shape b) :
    matchBody (b ++ '>' :: t) = some ('>' :: t) := by
  rcases hb with hb | hb
  · unfold matchBody
    rw [matchBody1_complete hb]
  · obtain ⟨hne, hd⟩ := hb
    unfold matchBody
    rw [matchBody1_none_of_digits hne hd]
    unfold matchBody2
    exact span1_append hd hne (by decide)

/-- Completeness of the matcher: a token-shaped string at the front
matches, whatever follows. -/
lemma matchGlyphAt_complete {q t : List Char} (h : TokShape q) :
    matchGlyphAt (q ++ t) = some t := by
  obtain ⟨g, l, y, p, h', b, hg, hl, hy, hp, hh, hb, rfl⟩ := h
  rw [matchGlyphAt_eq_bind]
  simp only [List.cons_append, List.append_assoc, List.singleton_append,
    List.nil_append, Option.some_bind, expectCI_cons hg, expectCI_cons hl,
    expectCI_cons hy, expectCI_cons hp, expectCI_cons hh, expectCh_cons,
    matchBody_complete hb]

/-! ## Structural facts about tokens -/

lemma tokShape_cons {q : List Char} (h : TokShape q) :
    ∃ g q', q = g :: q' ∧ lowerA g = 'g' := by
  obtain ⟨g, l, y, p, h', b, hg, _, _, _, _, _, rfl⟩ := h
  exact ⟨g, _, rfl, hg⟩

lemma tokShape_ne_nil {q : List Char} (h : TokShape q) : q ≠ [] := by
  obtain ⟨g, q', rfl, _⟩ := tokShape_cons h
  simp

lemma body_no_ws {b : List Char} (hb : Body1Shape b ∨ Body2Shape b) :
    ∀ a ∈ b, isWsA a = false := by
  rcases hb with hb | hb
  · obtain ⟨c, ds, f, o, n, t', a1, a2, hc, _, hdsd, hf, ho, hn, ht,
      _, ha1c, _, ha2c, rfl⟩ := hb
    intro a ha
    simp only [List.mem_cons, List.mem_append] at ha
    rcases ha with rfl | rfl | ha | rfl | rfl | rfl | rfl | rfl | rfl |
      rfl | ha | rfl | ha
    · exact ws_false_of_lowerA hc (by decide)
    · decide
    · exact ws_false_of_digit (hdsd a ha)
    · decide
    · exact ws_false_of_lowerA hf (by decide)
    · exact ws_false_of_lowerA ho (by decide)
    · exact ws_false_of_lowerA hn (by decide)
    · exact ws_false_of_lowerA ht (by decide)
    · decide
    · decide
    · exact ws_false_of_alnum (ha1c a ha)
    · decide
    · exact ws_false_of_alnumHyphen (ha2c a ha)
  · exact fun a ha => ws_false_of_digit (hb.2 a ha)

/-- Tokens contain no whitespace character (in particular no space, no
tab and no newline). -/
lemma tokShape_no_ws {q : List Char} (h : TokShape q) :
    ∀ a ∈ q, isWsA a = false := by
  obtain ⟨g, l, y, p, h', b, hg, hl, hy, hp, hh, hb, rfl⟩ := h
  intro a ha
  simp only [List.mem_cons, List.mem_append, List.mem_singleton] at ha
  rcases ha with rfl | rfl | rfl | rfl | rfl | rfl | ha | rfl | h0
  · exact ws_false_of_lowerA hg (by decide)
  · exact ws_false_of_lowerA hl (by decide)
  · exact ws_false_of_lowerA hy (by decide)
  · exact ws_false_of_lowerA hp (by decide)
  · exact ws_false_of_lowerA hh (by decide)
  · decide
  · exact body_no_ws hb a ha
  · decide
  · simp at h0

lemma matchGlyphAt_nil : matchGlyphAt [] = none := rfl

lemma matchGlyphAt_cons_none {c : Char} {cs : List Char}
    (h : lowerA c ≠ 'g') : matchGlyphAt (c :: cs) = none := by
  rw [matchGlyphAt_eq_bind]
  simp [expectCI, h]

lemma matchGlyphAt_ws_none {c : Char} {cs : List Char}
    (h : isWsA c = true) : matchGlyphAt (c :: cs) = none := by
  refine matchGlyphAt_cons_none ?_
  have hup : isUpperA c = false := by
    simp [isWsA] at h
    simp [isUpperA]; omega
  unfold lowerA
  rw [if_neg (by simp [hup])]
  refine char_ne_of_toNat_ne ?_
  simp [isWsA] at h
  have : ('g').toNat = 103 := by decide
  omega

lemma matchGlyphAt_length {cs r : List Char}
    (h : matchGlyphAt cs = some r) : r.length < cs.length := by
  obtain ⟨q, hq, rfl⟩ := matchGlyphAt_sound h
  obtain ⟨g, q', rfl, _⟩ := tokShape_cons hq
  simp only [List.cons_append, List.length_cons, List.length_append]
  omega

/-! ## Occurrences of the pattern inside a string -/

/-- `cs` contains a substring matched by the glyph pattern. -/
def HasTok (cs : List Char) : Prop :=
  ∃ pre q post, TokShape q ∧ cs = pre ++ q ++ post

lemma not_hasTok_nil : ¬ HasTok ([] : List Char) := by
  rintro ⟨pre, q, post, hq, heq⟩
  rcases List.append_eq_nil.mp heq.symm with ⟨h1, -⟩
  rcases List.append_eq_nil.mp h1 with ⟨-, h2⟩
  exact tokShape_ne_nil hq h2

lemma hasTok_cons {c : Char} {cs : List Char} (h : HasTok cs) :
    HasTok (c :: cs) := by
  obtain ⟨pre, q, post, hq, rfl⟩ := h
  exact ⟨c :: pre, q, post, hq, rfl⟩

lemma hasTok_of_cons_eq {x : Char} {out pre q post : List Char}
    (hq : TokShape q) (heq : x :: out = pre ++ q ++ post)
    (hx : lowerA x ≠ 'g') : HasTok out := by
  cases pre with
  | nil =>
    obtain ⟨g, q', rfl, hg⟩ := tokShape_cons hq
    simp only [List.nil_append, List.cons_append, List.cons.injEq] at heq
    exact absurd (heq.1 ▸ hg) hx
  | cons p0 pre' =>
    simp only [List.cons_append, List.cons.injEq, List.append_assoc] at heq
    exact ⟨pre', q, post, hq, by simpa [List.append_assoc] using heq.2⟩

/-! ## Unfolding equations for the fuelled substitution -/

lemma glyphSubF_succ_eq : ∀ n (cs : List Char), cs.length ≤ n →
    glyphSubF (n + 1) cs = glyphSubF n cs := by
  intro n
  induction n with
  | zero =>
    intro cs h
    rw [List.length_eq_zero.mp (Nat.le_zero.mp h)]
    rfl
  | succ n ih =>
    intro cs h
    cases cs with
    | nil => rfl
    | cons c cs =>
      cases hm : matchGlyphAt (c :: cs) with
      | some rest =>
        have : rest.length ≤ n := by
          have := matchGlyphAt_length hm
          simp only [List.length_cons] at this h
          omega
        simp only [glyphSubF, hm, ih rest this]
      | none =>
        have : cs.length ≤ n := by
          simp only [List.length_cons] at h
          omega
        simp only [glyphSubF, hm, ih cs this]

lemma glyphSubF_eq_glyphSub : ∀ n (cs : List Char), cs.length ≤ n →
    glyphSubF n cs = glyphSub cs := by
  intro n
  induction n with
  | zero =>
    intro cs h
    rw [List.length_eq_zero.mp (Nat.le_zero.mp h)]
    rfl
  | succ n ih =>
    intro cs h
    by_cases h2 : cs.length ≤ n
    · rw [glyphSubF_succ_eq n cs h2, ih cs h2]
    · have : cs.length = n + 1 := by omega
      unfold glyphSub
      rw [this]

lemma glyphSub_cons (c : Char) (cs : List Char) :
    glyphSub (c :: cs) =
      match matchGlyphAt (c :: cs) with
      | some rest => ' ' :: glyphSub rest
      | none => c :: glyphSub cs := by
  show glyphSubF (cs.length + 1) (c :: cs) = _
  cases hm : matchGlyphAt (c :: cs) with
  | some rest =>
    have : rest.length ≤ cs.length := by
      have := matchGlyphAt_length hm
      simp only [List.length_cons] at this
      omega
    simp only [glyphSubF, hm, glyphSubF_eq_glyphSub cs.length rest this]
  | none =>
    simp only [glyphSubF, hm, glyphSubF_eq_glyphSub cs.length cs le_rfl]

/-! ## The substitution output contains no match -/

lemma glyphSub_spacefree_split : ∀ n (cs q t : List Char),
    cs.length ≤ n → glyphSubF n cs = q ++ t →
    (∀ a ∈ q, a ≠ ' ') → ∃ t', cs = q ++ t' := by
  intro n
  induction n with
  | zero =>
    intro cs q t _ heq _
    exact ⟨t, heq⟩
  | succ n ih =>
    intro cs q t hlen heq hsp
    cases cs with
    | nil =>
      simp only [glyphSubF] at heq
      rcases List.append_eq_nil.mp heq.symm with ⟨rfl, rfl⟩
      exact ⟨[], rfl⟩
    | cons c cs =>
      cases hm : matchGlyphAt (c :: cs) with
      | some rest =>
        simp only [glyphSubF, hm] at heq
        cases q with
        | nil => exact ⟨c :: cs, rfl⟩
        | cons q0 q' =>
          simp only [List.cons_append, List.cons.injEq] at heq
          exact absurd heq.1.symm (hsp q0 (by simp))
      | none =>
        simp only [glyphSubF, hm] at heq
        cases q with
        | nil => exact ⟨c :: cs, rfl⟩
        | cons q0 q' =>
          simp only [List.cons_append, List.cons.injEq] at heq
          obtain ⟨rfl, heq2⟩ := heq
          have hlen' : cs.length ≤ n := by
            simp only [List.length_cons] at hlen
            omega
          obtain ⟨t', rfl⟩ :=
            ih cs q' t hlen' heq2 fun a ha => hsp a (by simp [ha])
          exact ⟨t', rfl⟩

lemma tok_no_space {q : List Char} (hq : TokShape q) :
    ∀ a ∈ q, a ≠ ' ' := fun a ha he => by
  have := tokShape_no_ws hq a ha
  rw [he] at this
  exact absurd this (by decide)

lemma glyphSubF_noTok : ∀ n (cs : List Char), cs.length ≤ n →
    ¬ HasTok (glyphSubF n cs) := by
  intro n
  induction n with
  | zero =>
    intro cs h
    rw [List.length_eq_zero.mp (Nat.le_zero.mp h)]
    exact not_hasTok_nil
  | succ n ih =>
    intro cs hlen
    cases cs with
    | nil => exact not_hasTok_nil
    | cons c cs =>
      cases hm : matchGlyphAt (c :: cs) with
      | some rest =>
        simp only [glyphSubF, hm]
        rintro ⟨pre, q, post, hq, heq⟩
        have hrest : rest.length ≤ n := by
          have := matchGlyphAt_length hm
          simp only [List.length_cons] at this hlen
          omega
        exact ih rest hrest (hasTok_of_cons_eq hq heq (by decide))
      | none =>
        simp only [glyphSubF, hm]
        rintro ⟨pre, q, post, hq, heq⟩
        have hcs : cs.length ≤ n := by
          simp only [List.length_cons] at hlen
          omega
        cases pre with
        | nil =>
          obtain ⟨g, q', rfl, hg⟩ := tokShape_cons hq
          simp only [List.nil_append, List.cons_append,
            List.cons.injEq] at heq
          obtain ⟨rfl, heq2⟩ := heq
          obtain ⟨t', rfl⟩ := glyphSub_spacefree_split n cs q' post hcs
            heq2 fun a ha =>
              tok_no_space hq a (by simp [ha])
          have := @matchGlyphAt_complete _ t' hq
          simp only [List.cons_append] at this
          rw [this] at hm
          cases hm
        | cons p0 pre' =>
          simp only [List.cons_append, List.cons.injEq,
            List.append_assoc] at heq
          exact ih cs hcs ⟨pre', q, post, hq, by
            simpa [List.append_assoc] using heq.2⟩

/-- The first step of the normalizer leaves no pattern occurrence in its
output. -/
lemma glyphSub_noTok (cs : List Char) : ¬ HasTok (glyphSub cs) :=
  glyphSubF_noTok cs.length cs le_rfl

/-- On token-free input the substitution is the identity. -/
lemma glyphSub_eq_self : ∀ n (cs : List Char), cs.length ≤ n →
    ¬ HasTok cs → glyphSubF n cs = cs := by
  intro n
  induction n with
  | zero =>
    intro cs h _
    rw [List.length_eq_zero.mp (Nat.le_zero.mp h)]
    rfl
  | succ n ih =>
    intro cs hlen hnt
    cases cs with
    | nil => rfl
    | cons c cs =>
      cases hm : matchGlyphAt (c :: cs) with
      | some rest =>
        obtain ⟨q, hq, heq⟩ := matchGlyphAt_sound hm
        exact absurd ⟨[], q, rest, hq, by simp [heq]⟩ hnt
      | none =>
        have hcs : cs.length ≤ n := by
          simp only [List.length_cons] at hlen
          omega
        simp only [glyphSubF, hm, ih cs hcs fun h => hnt (hasTok_cons h)]

lemma glyphSub_eq_self_of_noTok {cs : List Char} (h : ¬ HasTok cs) :
    glyphSub cs = cs := glyphSub_eq_self cs.length cs le_rfl h

/-! ## Facts about the collapsing step -/

/-- The horizontal tab. -/
def isTabA (c : Char) : Bool := decide (c.toNat = 9)

lemma blank_of_tab {c : Char} (h : isTabA c = true) : isBlankA c = true := by
  simp [isTabA] at h; simp [isBlankA]; omega

lemma tab_false_of_blank_false {c : Char} (h : isBlankA c = false) :
    isTabA c = false := by
  cases ht : isTabA c
  · rfl
  · rw [blank_of_tab ht] at h; cases h

lemma char_eq_of_toNat {c d : Char} (h : c.toNat = d.toNat) : c = d := by
  have h1 := Char.ofNat_toNat c
  have h2 := Char.ofNat_toNat d
  rw [← h1, ← h2, h]

lemma space_of_blank_not_tab {c : Char} (hb : isBlankA c = true)
    (ht : isTabA c = false) : c = ' ' := by
  simp [isBlankA] at hb
  simp [isTabA] at ht
  exact char_eq_of_toNat (by simpa using hb.resolve_right ht)

lemma collapse_head_blank {c : Char} : ∀ {cs : List Char},
    isBlankA c = true → ∃ z, collapseBlanks (c :: cs) = ' ' :: z := by
  intro cs
  induction cs generalizing c with
  | nil => intro h; exact ⟨[], by simp [collapseBlanks, h]⟩
  | cons d rest ih =>
    intro h
    by_cases hd : isBlankA d = true
    · obtain ⟨z, hz⟩ := ih hd
      exact ⟨z, by simp [collapseBlanks, h, hd, hz]⟩
    · simp at hd
      exact ⟨collapseBlanks (d :: rest), by simp [collapseBlanks, h, hd]⟩

lemma collapse_head_nonblank {d : Char} {rest : List Char}
    (h : isBlankA d = false) :
    ∃ z, collapseBlanks (d :: rest) = d :: z := by
  cases rest with
  | nil => exact ⟨[], by simp [collapseBlanks, h]⟩
  | cons e rest' =>
    exact ⟨collapseBlanks (e :: rest'), by simp [collapseBlanks, h]⟩

lemma collapse_blankfree_split : ∀ (cs q t : List Char),
    collapseBlanks cs = q ++ t → (∀ a ∈ q, isBlankA a = false) →
    ∃ t', cs = q ++ t' := by
  intro cs
  induction cs with
  | nil =>
    intro q t heq _
    simp only [collapseBlanks] at heq
    rcases List.append_eq_nil.mp heq.symm with ⟨rfl, rfl⟩
    exact ⟨[], rfl⟩
  | cons c cs ih =>
    intro q t heq hbf
    cases q with
    | nil => exact ⟨c :: cs, rfl⟩
    | cons q0 q' =>
      cases cs with
      | nil =>
        by_cases hb : isBlankA c = true
        · simp only [collapseBlanks, hb, if_true, List.cons_append,
            List.cons.injEq] at heq
          have := hbf q0 (by simp)
          rw [← heq.1] at this
          exact absurd this (by decide)
        · simp only [Bool.not_eq_true] at hb
          simp only [collapseBlanks, hb, Bool.false_eq_true, if_false,
            List.cons_append, List.cons.injEq] at heq
          obtain ⟨rfl, heq2⟩ := heq
          rcases List.append_eq_nil.mp heq2.symm with ⟨rfl, rfl⟩
          exact ⟨[], rfl⟩
      | cons d rest =>
        by_cases hcd : isBlankA c = true ∧ isBlankA d = true
        · have hout : collapseBlanks (c :: d :: rest) =
              collapseBlanks (d :: rest) := by
            simp [collapseBlanks, hcd.1, hcd.2]
          rw [hout] at heq
          obtain ⟨z, hz⟩ := @collapse_head_blank _ rest hcd.2
          rw [hz] at heq
          simp only [List.cons_append, List.cons.injEq] at heq
          have := hbf q0 (by simp)
          rw [← heq.1] at this
          exact absurd this (by decide)
        · have hout : collapseBlanks (c :: d :: rest) =
              (if isBlankA c then ' ' else c) ::
                collapseBlanks (d :: rest) := by
            rcases Decidable.not_and_iff_or_not.mp hcd with h | h <;>
              simp only [Bool.not_eq_true] at h <;>
              simp [collapseBlanks, h]
          rw [hout] at heq
          simp only [List.cons_append, List.cons.injEq] at heq
          obtain ⟨h1, heq2⟩ := heq
          by_cases hb : isBlankA c = true
          · rw [if_pos hb] at h1
            have := hbf q0 (by simp)
            rw [← h1] at this
            exact absurd this (by decide)
          · simp only [Bool.not_eq_true] at hb
            rw [if_neg (by simp [hb])] at h1
            obtain ⟨t', ht'⟩ := ih q' t heq2
              fun a ha => hbf a (by simp [ha])
            exact ⟨t', by simp [← h1, ht']⟩

lemma collapse_hasTok {cs : List Char} (h : HasTok (collapseBlanks cs)) :
    HasTok cs := by
  induction cs with
  | nil =>
    simp only [collapseBlanks] at h
    exact absurd h not_hasTok_nil
  | cons c cs ih =>
    cases cs with
    | nil =>
      by_cases hb : isBlankA c = true
      · simp only [collapseBlanks, hb, if_true] at h
        obtain ⟨pre, q, post, hq, heq⟩ := h
        obtain ⟨g, q', rfl, hg⟩ := tokShape_cons hq
        cases pre with
        | nil =>
          simp only [List.nil_append, List.cons_append,
            List.cons.injEq] at heq
          have : lowerA ' ' = 'g' := heq.1 ▸ hg
          exact absurd this (by decide)
        | cons p0 pre' =>
          simp only [List.cons_append, List.cons.injEq] at heq
          rcases List.append_eq_nil.mp heq.2.symm with ⟨h1, -⟩
          rcases List.append_eq_nil.mp h1 with ⟨-, h2⟩
          cases h2
      · simp only [Bool.not_eq_true] at hb
        simpa only [collapseBlanks, hb, Bool.false_eq_true, if_false]
          using h
    | cons d rest =>
      by_cases hcd : isBlankA c = true ∧ isBlankA d = true
      · have hout : collapseBlanks (c :: d :: rest) =
            collapseBlanks (d :: rest) := by
          simp [collapseBlanks, hcd.1, hcd.2]
        rw [hout] at h
        exact hasTok_cons (ih h)
      · have hout : collapseBlanks (c :: d :: rest) =
            (if isBlankA c then ' ' else c) ::
              collapseBlanks (d :: rest) := by
          rcases Decidable.not_and_iff_or_not.mp hcd with h' | h' <;>
            simp only [Bool.not_eq_true] at h' <;>
            simp [collapseBlanks, h']
        rw [hout] at h
        obtain ⟨pre, q, post, hq, heq⟩ := h
        cases pre with
        | nil =>
          obtain ⟨g, q', rfl, hg⟩ := tokShape_cons hq
          simp only [List.nil_append, List.cons_append,
            List.cons.injEq] at heq
          obtain ⟨h1, heq2⟩ := heq
          by_cases hb : isBlankA c = true
          · rw [if_pos hb] at h1
            exact absurd (h1 ▸ hg) (by decide)
          · simp only [Bool.not_eq_true] at hb
            rw [if_neg (by simp [hb])] at h1
            have hqbf : ∀ a ∈ q', isBlankA a = false := fun a ha =>
              blank_false_of_ws_false
                (tokShape_no_ws hq a (by simp [ha]))
            obtain ⟨t', ht'⟩ :=
              collapse_blankfree_split (d :: rest) q' post heq2 hqbf
            exact ⟨[], g :: q', t', hq, by simp [← h1, ht']⟩
        | cons p0 pre' =>
          simp only [List.cons_append, List.cons.injEq] at heq
          exact hasTok_cons (ih ⟨pre', q, post, hq, heq.2⟩)

/-! ## Tab-freeness and absence of adjacent blanks -/

/-- The output discipline of the collapsing step: no tab anywhere and no
two adjacent blank characters. -/
def NoTabNoAdj (cs : List Char) : Prop :=
  (∀ a ∈ cs, isTabA a = false) ∧
  cs.Chain' (fun a b => isBlankA a = false ∨ isBlankA b = false)

lemma collapse_cases (c d : Char) (rest : List Char) :
    (isBlankA c = true ∧ isBlankA d = true ∧
      collapseBlanks (c :: d :: rest) = collapseBlanks (d :: rest)) ∨
    (¬(isBlankA c = true ∧ isBlankA d = true) ∧
      collapseBlanks (c :: d :: rest) =
        (if isBlankA c then ' ' else c) :: collapseBlanks (d :: rest)) := by
  by_cases hcd : isBlankA c = true ∧ isBlankA d = true
  · exact Or.inl ⟨hcd.1, hcd.2, by simp [collapseBlanks, hcd.1, hcd.2]⟩
  · refine Or.inr ⟨hcd, ?_⟩
    rcases Decidable.not_and_iff_or_not.mp hcd with h | h <;>
      simp only [Bool.not_eq_true] at h <;>
      simp [collapseBlanks, h]

lemma collapse_noTab {cs : List Char} :
    ∀ a ∈ collapseBlanks cs, isTabA a = false := by
  induction cs with
  | nil => simp [collapseBlanks]
  | cons c cs ih =>
    cases cs with
    | nil =>
      by_cases hb : isBlankA c = true
      · simp only [collapseBlanks, hb, if_true]
        intro a ha
        rcases List.mem_singleton.mp ha with rfl
        decide
      · simp only [Bool.not_eq_true] at hb
        simp only [collapseBlanks, hb, Bool.false_eq_true, if_false]
        intro a ha
        rcases List.mem_singleton.mp ha with rfl
        exact tab_false_of_blank_false hb
    | cons d rest =>
      rcases collapse_cases c d rest with ⟨h1, h2, hout⟩ | ⟨hcd, hout⟩
      · rw [hout]; exact ih
      · rw [hout]
        intro a ha
        rcases List.mem_cons.mp ha with rfl | ha
        · by_cases hb : isBlankA c = true
          · rw [if_pos hb]; decide
          · simp only [Bool.not_eq_true] at hb
            rw [if_neg (by simp [hb])]
            exact tab_false_of_blank_false hb
        · exact ih a ha

lemma collapse_chain {cs : List Char} :
    (collapseBlanks cs).Chain'
      (fun a b => isBlankA a = false ∨ isBlankA b = false) := by
  induction cs with
  | nil => simp [collapseBlanks]
  | cons c cs ih =>
    cases cs with
    | nil =>
      by_cases hb : isBlankA c = true <;>
        simp [collapseBlanks, hb]
    | cons d rest =>
      rcases collapse_cases c d rest with ⟨h1, h2, hout⟩ | ⟨hcd, hout⟩
      · rw [hout]; exact ih
      · rw [hout]
        rw [List.chain'_cons']
        refine ⟨?_, ih⟩
        intro y hy
        by_cases hb : isBlankA c = true
        · have hd : isBlankA d = false := by
            rcases Decidable.not_and_iff_or_not.mp hcd with h | h
            · exact absurd hb h
            · simpa using h
          obtain ⟨z, hz⟩ := @collapse_head_nonblank _ rest hd
          rw [hz] at hy
          simp only [List.head?_cons, Option.mem_def,
            Option.some.injEq] at hy
          right
          rw [← hy]
          exact hd
        · simp only [Bool.not_eq_true] at hb
          left
          rw [if_neg (by simp [hb])]
          exact hb

/-- The collapsing step establishes the output discipline. -/
lemma collapse_good (cs : List Char) : NoTabNoAdj (collapseBlanks cs) :=
  ⟨collapse_noTab, collapse_chain⟩

/-- On a string already satisfying the discipline, the collapsing step
is the identity. -/
lemma collapse_eq_self {cs : List Char} (h : NoTabNoAdj cs) :
    collapseBlanks cs = cs := by
  obtain ⟨htab, hchain⟩ := h
  induction cs with
  | nil => rfl
  | cons c cs ih =>
    cases cs with
    | nil =>
      by_cases hb : isBlankA c = true
      · have : c = ' ' := space_of_blank_not_tab hb (htab c (by simp))
        subst this
        simp [collapseBlanks]
      · simp only [Bool.not_eq_true] at hb
        simp [collapseBlanks, hb]
    | cons d rest =>
      have hpair := (List.chain'_cons.mp hchain).1
      have htl := (List.chain'_cons.mp hchain).2
      have hnotboth : ¬(isBlankA c = true ∧ isBlankA d = true) := by
        rcases hpair with h | h <;> simp [h]
      rcases collapse_cases c d rest with ⟨h1, h2, -⟩ | ⟨-, hout⟩
      · exact absurd ⟨h1, h2⟩ hnotboth
      · rw [hout, ih (fun a ha => htab a (by simp [ha])) htl]
        by_cases hb : isBlankA c = true
        · have : c = ' ' := space_of_blank_not_tab hb (htab c (by simp))
          rw [if_pos hb, this]
        · simp only [Bool.not_eq_true] at hb
          rw [if_neg (by simp [hb])]

/-! ## Closure of the discipline and of token-freeness under stripping -/

lemma chain_dropWhile {R : Char → Char → Prop} {p : Char → Bool} :
    ∀ {l : List Char}, l.Chain' R → (l.dropWhile p).Chain' R := by
  intro l
  induction l with
  | nil => intro h; simp
  | cons c l ih =>
    intro h
    by_cases hp : p c = true
    · rw [List.dropWhile_cons_of_pos hp]
      exact ih (List.Chain'.tail h)
    · simp only [Bool.not_eq_true] at hp
      rwa [List.dropWhile_cons_of_neg (by simp [hp])]

lemma good_dropWhile {p : Char → Bool} {l : List Char}
    (h : NoTabNoAdj l) : NoTabNoAdj (l.dropWhile p) :=
  ⟨fun a ha => h.1 a (List.Sublist.subset (List.dropWhile_sublist _) ha),
   chain_dropWhile h.2⟩

lemma good_reverse {l : List Char} (h : NoTabNoAdj l) :
    NoTabNoAdj l.reverse := by
  refine ⟨fun a ha => h.1 a (List.mem_reverse.mp ha), ?_⟩
  rw [List.chain'_reverse]
  exact h.2.imp fun a b hab => hab.symm

lemma good_pyStrip {l : List Char} (h : NoTabNoAdj l) :
    NoTabNoAdj (pyStrip l) :=
  good_reverse (good_dropWhile (good_reverse (good_dropWhile h)))

lemma pyStrip_decomp (z : List Char) :
    ∃ a b, z = a ++ pyStrip z ++ b := by
  refine ⟨z.takeWhile isWsA,
    ((z.dropWhile isWsA).reverse.takeWhile isWsA).reverse, ?_⟩
  have h2 : z.dropWhile isWsA = pyStrip z ++
      ((z.dropWhile isWsA).reverse.takeWhile isWsA).reverse := by
    unfold pyStrip
    calc z.dropWhile isWsA
        = (z.dropWhile isWsA).reverse.reverse := by
          rw [List.reverse_reverse]
      _ = ((z.dropWhile isWsA).reverse.takeWhile isWsA ++
            (z.dropWhile isWsA).reverse.dropWhile isWsA).reverse := by
          rw [List.takeWhile_append_dropWhile]
      _ = ((z.dropWhile isWsA).reverse.dropWhile isWsA).reverse ++
            ((z.dropWhile isWsA).reverse.takeWhile isWsA).reverse := by
          rw [List.reverse_append]
  rw [List.append_assoc, ← h2, List.takeWhile_append_dropWhile]

lemma hasTok_sub {m z a b : List Char} (h : HasTok m)
    (hz : z = a ++ m ++ b) : HasTok z := by
  obtain ⟨pre, q, post, hq, rfl⟩ := h
  exact ⟨a ++ pre, q, post ++ b, hq, by simp [hz, List.append_assoc]⟩

lemma pyStrip_hasTok {z : List Char} (h : HasTok (pyStrip z)) :
    HasTok z := by
  obtain ⟨a, b, hz⟩ := pyStrip_decomp z
  exact hasTok_sub h hz

/-! ## Python strip is idempotent -/

lemma dropWhile_idem {p : Char → Bool} :
    ∀ l : List Char, (l.dropWhile p).dropWhile p = l.dropWhile p := by
  intro l
  induction l with
  | nil => rfl
  | cons c l ih =>
    by_cases hp : p c = true
    · rw [List.dropWhile_cons_of_pos hp]; exact ih
    · simp only [Bool.not_eq_true] at hp
      rw [List.dropWhile_cons_of_neg (by simp [hp]),
        List.dropWhile_cons_of_neg (by simp [hp])]

lemma dropWhile_head_false {p : Char → Bool} :
    ∀ (l : List Char) {c v}, l.dropWhile p = c :: v → p c = false := by
  intro l
  induction l with
  | nil => intro c v h; cases h
  | cons a l ih =>
    intro c v h
    by_cases hp : p a = true
    · rw [List.dropWhile_cons_of_pos hp] at h
      exact ih h
    · simp only [Bool.not_eq_true] at hp
      rw [List.dropWhile_cons_of_neg (by simp [hp])] at h
      injection h with h1 h2
      rw [← h1]
      exact hp

lemma dropWhile_append_last {p : Char → Bool} {c : Char}
    (hc : p c = false) :
    ∀ u : List Char, ∃ w, (u ++ [c]).dropWhile p = w ++ [c] := by
  intro u
  have hc' : ¬ p c = true := by simp [hc]
  induction u with
  | nil =>
    refine ⟨[], ?_⟩
    rw [List.nil_append, List.dropWhile_cons_of_neg hc']
  | cons a u ih =>
    by_cases hp : p a = true
    · obtain ⟨w, hw⟩ := ih
      exact ⟨w, by rw [List.cons_append,
        List.dropWhile_cons_of_pos hp, hw]⟩
    · have hp' : ¬ p a = true := hp
      exact ⟨a :: u, by rw [List.cons_append,
        List.dropWhile_cons_of_neg hp']⟩

lemma pyStrip_idem (z : List Char) : pyStrip (pyStrip z) = pyStrip z := by
  unfold pyStrip
  cases hm : z.dropWhile isWsA with
  | nil => simp
  | cons c m' =>
    have hc : isWsA c = false := dropWhile_head_false z hm
    have hrev : (c :: m').reverse = m'.reverse ++ [c] := by simp
    rw [hrev]
    obtain ⟨w, hw⟩ := dropWhile_append_last hc m'.reverse
    rw [hw]
    have h1 : (w ++ [c]).reverse.dropWhile isWsA = (w ++ [c]).reverse := by
      rw [List.reverse_append]
      simp only [List.reverse_cons, List.reverse_nil, List.nil_append,
        List.singleton_append]
      exact List.dropWhile_cons_of_neg (by simp [hc])
    rw [h1, List.reverse_reverse, ← hw, dropWhile_idem, hw]

/-! ## Newline counting -/

/-- Number of newline characters in a string. -/
def nlCount (cs : List Char) : Nat := cs.countP (fun c => c == '\n')

lemma nl_false_of_blank {c : Char} (h : isBlankA c = true) :
    (c == '\n') = false := by
  simp [isBlankA] at h
  simp only [beq_eq_false_iff_ne, ne_eq]
  intro hc
  subst hc
  simp at h

lemma nl_false_of_ws_false {c : Char} (h : isWsA c = false) :
    (c == '\n') = false := by
  simp only [beq_eq_false_iff_ne, ne_eq]
  intro hc
  subst hc
  exact absurd h (by decide)

lemma nlCount_cons (c : Char) (l : List Char) :
    nlCount (c :: l) = nlCount l + (if c == '\n' then 1 else 0) := by
  simp [nlCount, List.countP_cons]

/-- The collapsing step removes no newline. -/
lemma collapse_nlCount (cs : List Char) :
    nlCount (collapseBlanks cs) = nlCount cs := by
  induction cs with
  | nil => rfl
  | cons c cs ih =>
    cases cs with
    | nil =>
      by_cases hb : isBlankA c = true
      · simp [collapseBlanks, hb, nlCount, List.countP_cons,
          nl_false_of_blank hb]
      · simp only [Bool.not_eq_true] at hb
        simp [collapseBlanks, hb]
    | cons d rest =>
      rcases collapse_cases c d rest with ⟨h1, h2, hout⟩ | ⟨hcd, hout⟩
      · rw [hout, ih, nlCount_cons c (d :: rest), nl_false_of_blank h1]
        simp
      · rw [hout]
        by_cases hb : isBlankA c = true
        · rw [if_pos hb, nlCount_cons ' ' (collapseBlanks (d :: rest)),
            nlCount_cons c (d :: rest), ih, nl_false_of_blank hb]
          rfl
        · simp only [Bool.not_eq_true] at hb
          rw [if_neg (by simp [hb]),
            nlCount_cons c (collapseBlanks (d :: rest)),
            nlCount_cons c (d :: rest), ih]

lemma tokShape_nlCount_zero {q : List Char} (hq : TokShape q) :
    nlCount q = 0 := by
  simp only [nlCount]
  rw [List.countP_eq_zero]
  exact fun a ha => by
    simp only [nl_false_of_ws_false (tokShape_no_ws hq a ha)]
    exact Bool.false_ne_true

/-- The substitution step removes no newline. -/
lemma glyphSubF_nlCount : ∀ n (cs : List Char), cs.length ≤ n →
    nlCount (glyphSubF n cs) = nlCount cs := by
  intro n
  induction n with
  | zero =>
    intro cs h
    rw [List.length_eq_zero.mp (Nat.le_zero.mp h)]
    rfl
  | succ n ih =>
    intro cs hlen
    cases cs with
    | nil => rfl
    | cons c cs =>
      cases hm : matchGlyphAt (c :: cs) with
      | some rest =>
        obtain ⟨q, hq, heq⟩ := matchGlyphAt_sound hm
        have hrest : rest.length ≤ n := by
          have := matchGlyphAt_length hm
          simp only [List.length_cons] at this hlen
          omega
        simp only [glyphSubF, hm]
        rw [heq]
        simp only [nlCount, List.countP_cons, List.countP_append]
        have hq0 : q.countP (fun c => c == '\n') = 0 :=
          tokShape_nlCount_zero hq
        have := ih rest hrest
        simp only [nlCount] at this
        simp [this, hq0]
      | none =>
        have hcs : cs.length ≤ n := by
          simp only [List.length_cons] at hlen
          omega
        simp only [glyphSubF, hm]
        simp only [nlCount, List.countP_cons]
        have := ih cs hcs
        simp only [nlCount] at this
        simp [this]

lemma glyphSub_nlCount (cs : List Char) :
    nlCount (glyphSub cs) = nlCount cs :=
  glyphSubF_nlCount cs.length cs le_rfl

/-! ## Idempotence of the normalizer -/

lemma cleanList_noTok (cs : List Char) : ¬ HasTok (cleanList cs) :=
  fun h => glyphSub_noTok cs (collapse_hasTok (pyStrip_hasTok h))

lemma cleanList_good (cs : List Char) : NoTabNoAdj (cleanList cs) :=
  good_pyStrip (collapse_good _)

lemma cleanList_pyStrip (cs : List Char) :
    pyStrip (cleanList cs) = cleanList cs :=
  pyStrip_idem _

lemma cleanList_idem (cs : List Char) :
    cleanList (cleanList cs) = cleanList cs := by
  have h1 : glyphSub (cleanList cs) = cleanList cs :=
    glyphSub_eq_self_of_noTok (cleanList_noTok cs)
  have h2 : collapseBlanks (cleanList cs) = cleanList cs :=
    collapse_eq_self (cleanList_good cs)
  show pyStrip (collapseBlanks (glyphSub (cleanList cs))) = cleanList cs
  rw [h1, h2]
  exact cleanList_pyStrip cs

/-! ## Strings made only of glyph tokens and blanks -/

/-- A (raw) text consisting entirely of glyph-artifact tokens and
horizontal whitespace. -/
inductive TokensAndBlanks : List Char → Prop
  | nil : TokensAndBlanks []
  | blank {c : Char} {rest : List Char} :
      isBlankA c = true → TokensAndBlanks rest →
      TokensAndBlanks (c :: rest)
  | tok {q rest : List Char} :
      TokShape q → TokensAndBlanks rest → TokensAndBlanks (q ++ rest)

lemma tb_glyphSub {cs : List Char} (h : TokensAndBlanks cs) :
    ∀ a ∈ glyphSub cs, isBlankA a = true := by
  induction h with
  | nil => simp [glyphSub, glyphSubF]
  | @blank c rest hb _ ih =>
    rw [glyphSub_cons]
    rw [matchGlyphAt_ws_none (ws_of_blank hb)]
    intro a ha
    rcases List.mem_cons.mp ha with rfl | ha
    · exact hb
    · exact ih a ha
  | @tok q rest hq _ ih =>
    obtain ⟨g, q', rfl, -⟩ := tokShape_cons hq
    have hm : matchGlyphAt (g :: (q' ++ rest)) = some rest := by
      have := @matchGlyphAt_complete _ rest hq
      simpa using this
    rw [List.cons_append, glyphSub_cons, hm]
    intro a ha
    rcases List.mem_cons.mp ha with rfl | ha
    · decide
    · exact ih a ha

lemma collapse_all_blank {cs : List Char}
    (h : ∀ a ∈ cs, isBlankA a = true) :
    ∀ a ∈ collapseBlanks cs, isBlankA a = true := by
  induction cs with
  | nil => simp [collapseBlanks]
  | cons c cs ih =>
    cases cs with
    | nil =>
      simp only [collapseBlanks, h c (by simp), if_true]
      intro a ha
      rcases List.mem_singleton.mp ha with rfl
      decide
    | cons d rest =>
      rcases collapse_cases c d rest with ⟨h1, h2, hout⟩ | ⟨hcd, hout⟩
      · rw [hout]
        exact ih fun a ha => h a (by simp [List.mem_cons.mp ha])
      · exact absurd ⟨h c (by simp), h d (by simp)⟩ hcd

lemma all_ws_pyStrip_nil {z : List Char}
    (h : ∀ a ∈ z, isWsA a = true) : pyStrip z = [] := by
  have h1 : z.dropWhile isWsA = [] := by
    rw [List.dropWhile_eq_nil_iff]
    exact fun a ha => h a ha
  unfold pyStrip
  rw [h1]
  rfl

/-- A raw text made only of glyph tokens and horizontal whitespace is
normalized to the empty string. -/
lemma cleanList_eq_nil_of_tb {cs : List Char} (h : TokensAndBlanks cs) :
    cleanList cs = [] := by
  unfold cleanList
  exact all_ws_pyStrip_nil fun a ha =>
    ws_of_blank (collapse_all_blank (tb_glyphSub h) a ha)

lemma tokShape_of_match {q : List Char} (h : matchGlyphAt q = some []) :
    TokShape q := by
  obtain ⟨q', hq', heq⟩ := matchGlyphAt_sound h
  rw [List.append_nil] at heq
  exact heq ▸ hq'

/-! ## The document tree produced by the converter

`DLDoc` models a `DoclingDocument`: the set of page numbers present in
`document.pages` and the `(item, level)` sequence of `iterate_items` in
document traversal order.  Each `DLItem` carries the node kind
(text/table/picture/other), the page its provenance refers to, the raw
text (empty string = no text), the caption resolved by
`caption_text(document)` (empty string = none), the grid returned by
`export_to_dataframe` (header row and value rows; cells modelled as
strings, the only cell type the cleanup touches), whether
`get_image(document)` yields an image, and the linkage/label fields.
Float page geometry and bounding boxes are omitted: no claim mentions
them. -/

inductive ItemKind
  | text
  | table
  | picture
  | other
deriving DecidableEq, Repr

structure DLItem where
  kind : ItemKind
  pageNo : Nat
  text : String
  caption : String
  tableHeaders : List String
  tableValues : List (List String)
  hasImage : Bool
  selfRef : String
  parentRef : Option String
  label : String
deriving DecidableEq, Repr

structure DLDoc where
  pages : List Nat
  items : List (DLItem × Nat)
deriving DecidableEq, Repr

/-- `document.iterate_items(page_no=p)`: the items whose provenance is on
page `p`, in document order. -/
def iterateItems (d : DLDoc) (p : Nat) : List (DLItem × Nat) :=
  d.items.filter fun il => il.1.pageNo == p

/-- The `isinstance(dl_item, (TextItem, TableItem, PictureItem))` test. -/
def isEligible (k : ItemKind) : Bool :=
  k == ItemKind.text || k == ItemKind.table || k == ItemKind.picture

/-- `PageExtractor.has_text_slices`: true iff some text-kind item on the
page has truthy (non-empty) raw text.  Ineligible kinds are skipped, and
only `TextItem`s with text return `True`. -/
def hasTextSlices (d : DLDoc) (p : Nat) : Bool :=
  (iterateItems d p).any fun il =>
    isEligible il.1.kind && (il.1.kind == ItemKind.text && !(il.1.text == ""))

/-! ## SliceExtractor (src/app/services/content_extraction/slice_extractor.py) -/

/-- `SliceExtractor.get_content_text`: text-kind only; `None` for empty
raw text, otherwise the normalized text. -/
def getContentText (it : DLItem) : Option String :=
  if it.kind == ItemKind.text then
    if it.text == "" then none else some (cleanPdfGlyphs it.text)
  else none

/-- `SliceExtractor.get_caption_text`: table/picture-kind only; `None`
for an empty caption, otherwise the normalized caption. -/
def getCaptionText (it : DLItem) : Option String :=
  if it.kind == ItemKind.table || it.kind == ItemKind.picture then
    if it.caption == "" then none else some (cleanPdfGlyphs it.caption)
  else none

/-- `SliceExtractor.get_table_data`: table-kind only; header row first
when the frame has named columns, then the value rows; `None` when the
grid is empty; every (string) cell normalized. -/
def getTableData (it : DLItem) : Option (List (List String)) :=
  if it.kind == ItemKind.table then
    let td := (if it.tableHeaders.isEmpty then [] else [it.tableHeaders])
      ++ it.tableValues
    if td.isEmpty then none
    else some (td.map fun row => row.map cleanPdfGlyphs)
  else none

/-- `SliceExtractor.get_screenshot`: picture/table-kind only, present
when `get_image(document)` yields an image. -/
def getScreenshot (it : DLItem) : Bool :=
  (it.kind == ItemKind.picture || it.kind == ItemKind.table) && it.hasImage

/-- Output record `models.Slice`; the `screenshot` field records
presence of the encoded image. -/
structure Slice where
  sliceNo : Nat
  level : Nat
  ref : String
  parentRef : Option String
  label : String
  contentText : Option String
  captionText : Option String
  tableData : Option (List (List String))
  screenshot : Bool
deriving DecidableEq, Repr

/-- `SliceExtractor.get_model`: builds the `models.Slice` for one item.
A slice is built unconditionally — there is no content check in this
variant.  The screenshot is attached when the caller requests slice
screenshots and the item yields one (the Python call site passes the
request through; `get_model` guards on a non-`None` image format). -/
def sliceGetModel (it : DLItem) (level sliceNo : Nat)
    (includeSliceScreenshot : Bool) : Slice :=
  { sliceNo := sliceNo
    level := level
    ref := it.selfRef
    parentRef := it.parentRef
    label := it.label
    contentText := getContentText it
    captionText := getCaptionText it
    tableData := getTableData it
    screenshot := includeSliceScreenshot && getScreenshot it }

/-! ## PageExtractor (src/app/services/content_extraction/page_extractor.py) -/

/-- `PageExtractor.get_slices` of the `content_extraction` variant: one
`(slice_no, SliceExtractor)` pair per eligible item in document order.
The local counter `slice_no` is initialized to 1 and never incremented,
so every yielded pair carries the number 1. -/
def getSlicesA (d : DLDoc) (p : Nat) : List (Nat × (DLItem × Nat)) :=
  (iterateItems d p).filterMap fun il =>
    if isEligible il.1.kind then some (1, il) else none

/-- Output record `models.Page` (float geometry and the page screenshot
are omitted: no claim mentions them). -/
structure Page where
  pageNo : Nat
  slices : List Slice
deriving DecidableEq, Repr

/-- The slice loop of `PageExtractor.get_model`: the yielded slice
number is ignored and an own counter starting at the supplied offset is
incremented once per appended slice. -/
def pageSlicesFrom (includeSliceScreenshot : Bool) :
    Nat → List (Nat × (DLItem × Nat)) → List Slice
  | _, [] => []
  | n, (_, (it, lvl)) :: rest =>
    sliceGetModel it lvl n includeSliceScreenshot ::
      pageSlicesFrom includeSliceScreenshot (n + 1) rest

/-- `PageExtractor.get_model`. -/
def pageGetModel (d : DLDoc) (p sliceNo : Nat)
    (includeSliceScreenshot : Bool) : Page :=
  { pageNo := p
    slices := pageSlicesFrom includeSliceScreenshot sliceNo
      (getSlicesA d p) }

/-! ## PageExtractor of src/app/services/content_extractor/page_extractor.py -/

/-- The `SliceExtractor` of that variant also stores the slice number it
was constructed with. -/
structure SliceXB where
  item : DLItem
  level : Nat
  sliceNum : Nat
deriving DecidableEq, Repr

/-- `PageExtractor.get_slices` of the `content_extractor` variant: the
counter `slice_num` is initialized to the externally supplied
`first_slice_num` and never incremented in the loop, so every yielded
pair (and every constructed `SliceExtractor`) carries that same
number. -/
def getSlicesB (d : DLDoc) (p firstSliceNum : Nat) : List (Nat × SliceXB) :=
  (iterateItems d p).filterMap fun il =>
    if isEligible il.1.kind then
      some (firstSliceNum, ⟨il.1, il.2, firstSliceNum⟩)
    else none

/-! ## ContentExtractor stages -/

instance {e a : Type} [DecidableEq e] [DecidableEq a] :
    DecidableEq (Except e a) := fun x y =>
  match x, y with
  | Except.ok u, Except.ok v =>
    if h : u = v then isTrue (by rw [h])
    else isFalse (fun he => by cases he; exact h rfl)
  | Except.error u, Except.error v =>
    if h : u = v then isTrue (by rw [h])
    else isFalse (fun he => by cases he; exact h rfl)
  | Except.ok _, Except.error _ => isFalse (fun he => by cases he)
  | Except.error _, Except.ok _ => isFalse (fun he => by cases he)

/-- Outcome of one `converter.convert(source, page_range=(p, p),
raises_on_error=False)` call: the call raised, returned a result with a
falsy `document`, or returned a document. -/
inductive ConvOutcome
  | raises
  | noDoc
  | doc (d : DLDoc)
deriving DecidableEq, Repr

/-- Errors raised out of the extraction layer; `PageExtractor.__init__`
raises `ValueError(f"Page {page_no} not found in Docling document")`. -/
inductive ExtractError
  | pageNotFound (p : Nat)
deriving DecidableEq, Repr

/-- Modelled from the spec: the `models.OcrPipeline` enum with members
FAST, FULL and HYBRID is referenced by `_load_dl_converters` but its
declaration is not among the provided sources; §4.1 of the spec lists
exactly these three modes. -/
inductive OcrPipeline
  | fast
  | full
  | hybrid
deriving DecidableEq, Repr

/-- `ContentExtractor._load_dl_converters`: the ordered stage list —
the fast converter for HYBRID/FAST, then the full-OCR converter for
HYBRID/FULL.  A stage is represented by the outcome its invocation
would produce for the requested page. -/
def loadDlConverters (pl : OcrPipeline) (fastO fullO : ConvOutcome) :
    List ConvOutcome :=
  (if pl = OcrPipeline.hybrid ∨ pl = OcrPipeline.fast then [fastO]
   else []) ++
  (if pl = OcrPipeline.hybrid ∨ pl = OcrPipeline.full then [fullO]
   else [])

/-- A constructed `PageExtractor` of the `content_extractor` variant:
document, page number and first slice number. -/
structure PageExtractorS where
  doc : DLDoc
  pageNo : Nat
  firstSliceNo : Nat
deriving DecidableEq, Repr

/-- `ContentExtractor.extract_page` (src/app/services/content_extractor.py
lines 156-190, identical in content_extractor/content_extractor.py):
iterate over the stages; a raising invocation is caught and logged, a
result without document is logged, and the loop continues; otherwise a
`PageExtractor` is constructed (raising, uncaught, when the page is
absent from the document) and returned when the page has text slices or
the stage is the last one (`converter == self._dl_converters[-1]`;
stage instances are distinct objects, so this is the last position).
The second component counts the `converter.convert` invocations
performed. -/
def extractPageGo (p n : Nat) :
    List ConvOutcome → Except ExtractError (Option PageExtractorS) × Nat
  | [] => (Except.ok none, 0)
  | o :: rest =>
    match o with
    | ConvOutcome.raises =>
      let r := extractPageGo p n rest
      (r.1, r.2 + 1)
    | ConvOutcome.noDoc =>
      let r := extractPageGo p n rest
      (r.1, r.2 + 1)
    | ConvOutcome.doc d =>
      if p ∈ d.pages then
        if hasTextSlices d p || rest.isEmpty then
          (Except.ok (some ⟨d, p, n⟩), 1)
        else
          let r := extractPageGo p n rest
          (r.1, r.2 + 1)
      else (Except.error (ExtractError.pageNotFound p), 1)

/-- `extract_page` with the stage list built from the pipeline mode. -/
def extractPage (pl : OcrPipeline) (fastO fullO : ConvOutcome)
    (p n : Nat) : Except ExtractError (Option PageExtractorS) × Nat :=
  extractPageGo p n (loadDlConverters pl fastO fullO)

/-! ## ContentExtractor of src/app/services/content_extraction/content_extractor.py -/

/-- `ContentExtractor._convert_page_to_dl_doc`: exceptions from the
converter are caught (logged, `None`), a falsy `result.document` gives
`None`, otherwise the document. -/
def convertPageToDlDoc : ConvOutcome → Option DLDoc
  | ConvOutcome.raises => none
  | ConvOutcome.noDoc => none
  | ConvOutcome.doc d => some d

/-- The fallback branch of this variant's `extract_page`: convert with
the full-OCR converter and return the page whenever a document was
produced (no text check), `None` otherwise. -/
def extractPageFullStep (fullO : ConvOutcome) (p : Nat) :
    Except ExtractError (Option DLDoc) :=
  match convertPageToDlDoc fullO with
  | some d =>
    if p ∈ d.pages then Except.ok (some d)
    else Except.error (ExtractError.pageNotFound p)
  | none => Except.ok none

/-- `ContentExtractor.extract_page` of the `content_extraction` variant:
fast converter first; if it yields a document, a `PageExtractor` is
constructed (raising when the page is absent) and returned when the page
has text slices; otherwise fall back to the full-OCR converter. -/
def extractPageA (fastO fullO : ConvOutcome) (p : Nat) :
    Except ExtractError (Option DLDoc) :=
  match convertPageToDlDoc fastO with
  | some d =>
    if p ∈ d.pages then
      if hasTextSlices d p then Except.ok (some d)
      else extractPageFullStep fullO p
    else Except.error (ExtractError.pageNotFound p)
  | none => extractPageFullStep fullO p

/-- The page loop of `ContentExtractor.extract_pages_model`: pages in
ascending order, skipping pages for which `extract_page` returned
nothing, numbering slices from a running counter that starts at 1 and
advances by the number of slices of each produced page.  `conv b p` is
the outcome of the converter with `full_ocr = b` on page `p`. -/
def extractPagesModelGo (conv : Bool → Nat → ConvOutcome) (incl : Bool) :
    List Nat → Nat → Except ExtractError (List Page)
  | [], _ => Except.ok []
  | p :: ps, n =>
    match extractPageA (conv false p) (conv true p) p with
    | Except.error e => Except.error e
    | Except.ok none => extractPagesModelGo conv incl ps n
    | Except.ok (some d) =>
      match extractPagesModelGo conv incl ps
          (n + (pageGetModel d p n incl).slices.length) with
      | Except.error e => Except.error e
      | Except.ok pages => Except.ok (pageGetModel d p n incl :: pages)

/-- `ContentExtractor.extract_pages_model` over the inclusive page range
`[firstPage, lastPage]`. -/
def extractPagesModelA (conv : Bool → Nat → ConvOutcome)
    (firstPage lastPage : Nat) (incl : Bool) :
    Except ExtractError (List Page) :=
  extractPagesModelGo conv incl
    (List.range' firstPage (lastPage + 1 - firstPage)) 1

/-! ## document_processor.py -/

/-- Truthiness of an optional Python string. -/
def pyTruthy : Option String → Bool
  | some t => !(t == "")
  | none => false

/-- `_extract_item_text`. -/
def extractItemText (it : DLItem) (cleanup : Bool) : Option String :=
  if it.text == "" then none
  else some (if cleanup then cleanPdfGlyphs it.text else it.text)

/-- `_extract_item_caption_text`. -/
def extractItemCaptionText (it : DLItem) (cleanup : Bool) :
    Option String :=
  if it.caption == "" then none
  else some (if cleanup then cleanPdfGlyphs it.caption else it.caption)

/-- `_extract_item_table_data`. -/
def extractItemTableData (it : DLItem) (cleanup : Bool) :
    Option (List (List String)) :=
  let td := (if it.tableHeaders.isEmpty then [] else [it.tableHeaders])
    ++ it.tableValues
  if td.isEmpty then none
  else some (if cleanup then td.map fun row => row.map cleanPdfGlyphs
             else td)

/-- `_extract_item_png_image` presence. -/
def extractItemPngImage (it : DLItem) : Bool := it.hasImage

/-- Output record `models.Page.Slice` of document_processor.py
(positions carry float boxes and are omitted: no claim mentions
them). -/
structure SliceDP where
  level : Nat
  ref : String
  sequence : Nat
  parentRef : Option String
  label : String
  contentText : Option String
  captionText : Option String
  tableData : Option (List (List String))
  pngImage : Bool
deriving DecidableEq, Repr

/-- `_convert_node_item_to_slice`: ineligible kinds yield `None`;
pictures acquire content only through an extracted image (caption does
not count), tables through a non-empty grid, text through truthy
(extracted, possibly cleaned) text; an item without content yields
`None` — no slice is constructed. -/
def convertNodeItemToSlice (it : DLItem) (level sequence : Nat)
    (extractImages cleanupText : Bool) : Option SliceDP :=
  if isEligible it.kind then
    let pngImage :=
      match it.kind with
      | ItemKind.picture => extractImages && extractItemPngImage it
      | ItemKind.table => extractImages && extractItemPngImage it
      | _ => false
    let captionText :=
      if it.kind == ItemKind.picture || it.kind == ItemKind.table then
        extractItemCaptionText it cleanupText
      else none
    let tableData :=
      if it.kind == ItemKind.table then extractItemTableData it cleanupText
      else none
    let textContent :=
      if it.kind == ItemKind.text then extractItemText it cleanupText
      else none
    let hasContent :=
      (it.kind == ItemKind.picture && pngImage) ||
      (it.kind == ItemKind.table && tableData.isSome) ||
      (it.kind == ItemKind.text && pyTruthy textContent)
    if hasContent then
      some { level := level
             ref := it.selfRef
             sequence := sequence
             parentRef := it.parentRef
             label := it.label
             contentText := textContent
             captionText := captionText
             tableData := tableData
             pngImage := pngImage }
    else none
  else none

/-- The item loop of `_extract_document_slices`: the sequence number of
each emitted slice is the base sequence plus the number of slices
already collected.  (`iterate_items()` is called without a page filter
there; the converted document holds a single page.)  The surrounding
`try` can only fire on converter-object errors, which the pure model
does not produce. -/
def extractDocumentSlicesGo (extractImages cleanupText : Bool) :
    List (DLItem × Nat) → Nat → List SliceDP
  | [], _ => []
  | (it, lvl) :: rest, seq =>
    match convertNodeItemToSlice it lvl seq extractImages cleanupText with
    | some s => s :: extractDocumentSlicesGo extractImages cleanupText rest (seq + 1)
    | none => extractDocumentSlicesGo extractImages cleanupText rest seq

/-- `_extract_document_slices`. -/
def extractDocumentSlices (d : DLDoc) (extractImages : Bool)
    (sequence : Nat) (cleanupText : Bool) : List SliceDP :=
  extractDocumentSlicesGo extractImages cleanupText d.items sequence

/-- Output record of `_extract_document_page` (float geometry
omitted). -/
structure PageDP where
  pageNo : Nat
  slices : List SliceDP
deriving DecidableEq, Repr

/-- `_extract_document_page`: a page number absent from the document
raises when `raises_on_error` is set and yields `None` otherwise;
a present page yields the page record with its extracted slices. -/
def extractDocumentPage (d : DLDoc) (pageNo seq : Nat)
    (extractImages raisesOnError cleanupText : Bool) :
    Except ExtractError (Option PageDP) :=
  if pageNo ∈ d.pages then
    Except.ok (some { pageNo := pageNo
                      slices := extractDocumentSlices d extractImages seq
                        cleanupText })
  else if raisesOnError then
    Except.error (ExtractError.pageNotFound pageNo)
  else Except.ok none

/-! ## Concrete documents used by witnesses and counterexamples -/

/-- A text item with real text on page 1. -/
def itemTextW : DLItem :=
  { kind := ItemKind.text, pageNo := 1, text := "hello", caption := ""
    tableHeaders := [], tableValues := [], hasImage := false
    selfRef := "#/texts/0", parentRef := some "#/body", label := "text" }

/-- A second text item on page 1. -/
def itemTextW2 : DLItem :=
  { kind := ItemKind.text, pageNo := 1, text := "world", caption := ""
    tableHeaders := [], tableValues := [], hasImage := false
    selfRef := "#/texts/1", parentRef := some "#/body", label := "text" }

/-- A document whose page 1 carries one text item. -/
def docTextW : DLDoc := { pages := [1], items := [(itemTextW, 1)] }

/-- A document whose page 1 carries two text items. -/
def docTwoTexts : DLDoc :=
  { pages := [1], items := [(itemTextW, 1), (itemTextW2, 1)] }

/-- A document containing page 1 with no items at all. -/
def docEmptyPage1 : DLDoc := { pages := [1], items := [] }

/-- A document with no pages at all. -/
def docNoPages : DLDoc := { pages := [], items := [] }

lemma loadDlConverters_hybrid (f o : ConvOutcome) :
    loadDlConverters OcrPipeline.hybrid f o = [f, o] := rfl

lemma extractPageGo_nil (p n : Nat) :
    extractPageGo p n [] = (Except.ok none, 0) := rfl

lemma extractPageGo_raises (p n : Nat) (rest : List ConvOutcome) :
    extractPageGo p n (ConvOutcome.raises :: rest) =
      ((extractPageGo p n rest).1, (extractPageGo p n rest).2 + 1) := rfl

lemma extractPageGo_noDoc (p n : Nat) (rest : List ConvOutcome) :
    extractPageGo p n (ConvOutcome.noDoc :: rest) =
      ((extractPageGo p n rest).1, (extractPageGo p n rest).2 + 1) := rfl

lemma extractPageGo_doc (p n : Nat) (d : DLDoc)
    (rest : List ConvOutcome) :
    extractPageGo p n (ConvOutcome.doc d :: rest) =
      if p ∈ d.pages then
        if hasTextSlices d p || rest.isEmpty then
          (Except.ok (some ⟨d, p, n⟩), 1)
        else ((extractPageGo p n rest).1, (extractPageGo p n rest).2 + 1)
      else (Except.error (ExtractError.pageNotFound p), 1) := rfl

/-! ## C2 -/

/-- C2: In HYBRID mode, for every page whose fast-stage conversion
produces a document tree that contains the page and in which at least
one text-kind node on that page carries non-empty text, `extract_page`
returns that fast-stage result after exactly one converter invocation —
so the full-OCR stage is never invoked for that page. -/
theorem hybrid_fast_text_skips_full_ocr
    (d : DLDoc) (fullO : ConvOutcome) (p n : Nat)
    (hp : p ∈ d.pages)
    (ht : hasTextSlices d p = true) :
    extractPage OcrPipeline.hybrid (ConvOutcome.doc d) fullO p n =
      (Except.ok (some ⟨d, p, n⟩), 1) := by
  unfold extractPage
  rw [loadDlConverters_hybrid, extractPageGo_doc, if_pos hp, ht]
  rfl

theorem hybrid_fast_text_skips_full_ocr_witness :
    1 ∈ docTextW.pages ∧
    hasTextSlices docTextW 1 = true ∧
    extractPage OcrPipeline.hybrid (ConvOutcome.doc docTextW)
        ConvOutcome.noDoc 1 1 =
      (Except.ok (some ⟨docTextW, 1, 1⟩), 1) :=
  ⟨by decide, by decide,
    hybrid_fast_text_skips_full_ocr docTextW ConvOutcome.noDoc 1 1
      (by decide) (by decide)⟩

/-! ## C3 -/

/-- C3: In HYBRID mode, when the fast stage yields zero non-empty text
slices for the page (its invocation raised, produced no document, or
produced a document containing the page but with no text on it), the
full-OCR stage is invoked exactly once and its result is returned
regardless of its own content: the produced full-OCR page when there is
a document, nothing when the full stage raised or produced no document.
The invocation count is exactly 2 against a stage list of length 2, so
each stage ran once and there is no third conversion attempt.
Documents produced by either stage are assumed to contain the requested
page (otherwise `PageExtractor` raises, see the C5 analysis). -/
theorem hybrid_fast_empty_full_once
    (fastO fullO : ConvOutcome) (p n : Nat)
    (hfast : fastO = ConvOutcome.raises ∨ fastO = ConvOutcome.noDoc ∨
      ∃ d, fastO = ConvOutcome.doc d ∧ p ∈ d.pages ∧
        hasTextSlices d p = false)
    (hfull : ∀ d, fullO = ConvOutcome.doc d → p ∈ d.pages) :
    extractPage OcrPipeline.hybrid fastO fullO p n =
      ((match fullO with
        | ConvOutcome.doc d => Except.ok (some ⟨d, p, n⟩)
        | _ => Except.ok none), 2) ∧
    (loadDlConverters OcrPipeline.hybrid fastO fullO).length = 2 := by
  refine ⟨?_, rfl⟩
  unfold extractPage
  rw [loadDlConverters_hybrid]
  have hstep : extractPageGo p n [fullO] =
      ((match fullO with
        | ConvOutcome.doc d => Except.ok (some ⟨d, p, n⟩)
        | _ => Except.ok none), 1) := by
    cases fullO with
    | raises => rfl
    | noDoc => rfl
    | doc d =>
      rw [extractPageGo_doc, if_pos (hfull d rfl)]
      simp
  rcases hfast with rfl | rfl | ⟨d, rfl, hc, hnt⟩
  · rw [extractPageGo_raises, hstep]
  · rw [extractPageGo_noDoc, hstep]
  · rw [extractPageGo_doc, if_pos hc, hnt]
    simp only [Bool.false_or, List.isEmpty_cons, if_false,
      Bool.false_eq_true, hstep]

theorem hybrid_fast_empty_full_once_witness :
    (ConvOutcome.doc docEmptyPage1 = ConvOutcome.raises ∨
     ConvOutcome.doc docEmptyPage1 = ConvOutcome.noDoc ∨
     ∃ d, ConvOutcome.doc docEmptyPage1 = ConvOutcome.doc d ∧
       1 ∈ d.pages ∧ hasTextSlices d 1 = false) ∧
    extractPage OcrPipeline.hybrid (ConvOutcome.doc docEmptyPage1)
        (ConvOutcome.doc docEmptyPage1) 1 1 =
      (Except.ok (some ⟨docEmptyPage1, 1, 1⟩), 2) ∧
    (loadDlConverters OcrPipeline.hybrid (ConvOutcome.doc docEmptyPage1)
      (ConvOutcome.doc docEmptyPage1)).length = 2 := by
  have h := hybrid_fast_empty_full_once (ConvOutcome.doc docEmptyPage1)
    (ConvOutcome.doc docEmptyPage1) 1 1
    (Or.inr (Or.inr ⟨docEmptyPage1, rfl, by decide, by decide⟩))
    (fun d hd => by cases hd; decide)
  exact ⟨Or.inr (Or.inr ⟨docEmptyPage1, rfl, by decide, by decide⟩),
    h.1, h.2⟩

/-! ## C4 -/

/-- C4 counterexample: in HYBRID mode with the fast stage producing a
usable document tree that contains page 1 (just without text slices)
and the full-OCR stage producing no document, `extract_page` returns
nothing — refuting "returns nothing exactly when no configured stage
produces a usable document tree for that page". -/
theorem extract_page_none_despite_document :
    (extractPage OcrPipeline.hybrid (ConvOutcome.doc docEmptyPage1)
      ConvOutcome.noDoc 1 1).1 = Except.ok none ∧
    convertPageToDlDoc (ConvOutcome.doc docEmptyPage1) =
      some docEmptyPage1 ∧
    1 ∈ docEmptyPage1.pages := by decide

/-- A stage invocation that raised or produced no document. -/
def stageFails : ConvOutcome → Bool
  | ConvOutcome.raises => true
  | ConvOutcome.noDoc => true
  | ConvOutcome.doc _ => false

/-- C4 amended: over a stage list whose produced documents all contain
the requested page, `extract_page` returns nothing (with no raised
error) exactly when the last configured stage fails to produce a
document and no stage produces a document whose page bears text;
raising or document-less stage invocations are caught inside the loop
and the next stage is tried. -/
theorem extract_page_none_iff (os : List ConvOutcome) (p n : Nat)
    (hwf : ∀ d, ConvOutcome.doc d ∈ os → p ∈ d.pages) :
    (extractPageGo p n os).1 = Except.ok none ↔
      ((∀ o, os.getLast? = some o → stageFails o = true) ∧
       (∀ d, ConvOutcome.doc d ∈ os → hasTextSlices d p = false)) := by
  induction os with
  | nil => simp [extractPageGo_nil]
  | cons o rest ih =>
    have hwf' : ∀ d, ConvOutcome.doc d ∈ rest → p ∈ d.pages :=
      fun d hd => hwf d (by simp [hd])
    cases o with
    | raises =>
      cases rest with
      | nil => simp [extractPageGo_raises, extractPageGo_nil, stageFails]
      | cons b l =>
        rw [List.getLast?_cons_cons, extractPageGo_raises]
        simp only []
        rw [ih hwf']
        simp [stageFails]
    | noDoc =>
      cases rest with
      | nil => simp [extractPageGo_noDoc, extractPageGo_nil, stageFails]
      | cons b l =>
        rw [List.getLast?_cons_cons, extractPageGo_noDoc]
        simp only []
        rw [ih hwf']
        simp [stageFails]
    | doc d =>
      have hc : p ∈ d.pages := hwf d (by simp)
      cases rest with
      | nil =>
        rw [extractPageGo_doc, if_pos hc]
        simp [stageFails]
      | cons b l =>
        rw [List.getLast?_cons_cons, extractPageGo_doc, if_pos hc]
        by_cases ht : hasTextSlices d p = true
        · rw [ht]
          simp [ht]
        · simp only [Bool.not_eq_true] at ht
          rw [ht]
          simp only [Bool.false_or, List.isEmpty_cons,
            Bool.false_eq_true, if_false]
          rw [ih hwf']
          simp [ht]

theorem extract_page_none_iff_witness :
    (extractPageGo 1 1 [ConvOutcome.raises]).1 = Except.ok none := by
  refine (extract_page_none_iff [ConvOutcome.raises] 1 1 ?_).mpr
    ⟨?_, ?_⟩
  · intro d hd; simp at hd
  · intro o hd
    have ho : o = ConvOutcome.raises := by
      simpa using hd.symm
    rw [ho]
    rfl
  · intro d hd; simp at hd

/-! ## C5 -/

/-- C5 counterexample: when the converter does produce a document but
the requested page is absent from it, `ContentExtractor.extract_page`
raises the page-not-found error out of `PageExtractor` construction —
in both variants — even though the extraction layer passes
`raises_on_error=False` to the converter and exposes no flag of its
own; it does not return nothing for that page. -/
theorem extract_page_raises_on_missing_page :
    (extractPage OcrPipeline.hybrid (ConvOutcome.doc docNoPages)
      ConvOutcome.noDoc 1 1).1 =
        Except.error (ExtractError.pageNotFound 1) ∧
    extractPageA (ConvOutcome.doc docNoPages) ConvOutcome.noDoc 1 =
      Except.error (ExtractError.pageNotFound 1) := by decide

/-- C5 amended: only document_processor honors the flag — for a page
absent from a produced document, `_extract_document_page` returns
nothing when `raises_on_error` is `False` and raises the page-not-found
error when it is `True`; the ContentExtractor pipeline instead raises
unconditionally at `PageExtractor` construction, whatever outcomes
follow in its stage list. -/
theorem missing_page_flag_behavior (d : DLDoc) (p seq n : Nat)
    (ei cl : Bool) (rest : List ConvOutcome)
    (hp : p ∉ d.pages) :
    extractDocumentPage d p seq ei false cl = Except.ok none ∧
    extractDocumentPage d p seq ei true cl =
      Except.error (ExtractError.pageNotFound p) ∧
    (extractPageGo p n (ConvOutcome.doc d :: rest)).1 =
      Except.error (ExtractError.pageNotFound p) := by
  refine ⟨?_, ?_, ?_⟩
  · simp [extractDocumentPage, hp]
  · simp [extractDocumentPage, hp]
  · rw [extractPageGo_doc, if_neg hp]

theorem missing_page_flag_behavior_witness :
    (1 ∉ docNoPages.pages) ∧
    (extractDocumentPage docNoPages 1 0 false false true =
      Except.ok none ∧
    extractDocumentPage docNoPages 1 0 false true true =
      Except.error (ExtractError.pageNotFound 1) ∧
    (extractPageGo 1 1 [ConvOutcome.doc docNoPages,
        ConvOutcome.noDoc]).1 =
      Except.error (ExtractError.pageNotFound 1)) :=
  ⟨by decide,
    missing_page_flag_behavior docNoPages 1 0 1 false true
      [ConvOutcome.noDoc] (by decide)⟩

/-! ## C6 -/

/-- A picture item with neither an extractable image nor a caption. -/
def itemPicEmpty : DLItem :=
  { kind := ItemKind.picture, pageNo := 1, text := "", caption := ""
    tableHeaders := [], tableValues := [], hasImage := false
    selfRef := "#/pictures/0", parentRef := some "#/body"
    label := "picture" }

/-- A document whose page 1 carries only that picture. -/
def docPicEmpty : DLDoc := { pages := [1], items := [(itemPicEmpty, 1)] }

/-- C6 counterexample: `PageExtractor.get_model` of the
content_extraction variant emits a slice for a picture node that has no
extractable image and no caption — the emitted slice carries none of
`content_text`, `table_data` or an image, refuting the claim that such
slices are never constructed. -/
theorem slice_without_payload_emitted :
    ((pageGetModel docPicEmpty 1 1 true).slices.map fun s =>
      (s.contentText, s.tableData, s.screenshot)) = [(none, none, false)] ∧
    (pageGetModel docPicEmpty 1 1 true).slices.length = 1 := by decide

/-- A document_processor slice carries some payload. -/
def sliceHasPayload (s : SliceDP) : Bool :=
  s.contentText.isSome || s.tableData.isSome || s.pngImage

/-- The `has_content` condition of `_convert_node_item_to_slice`:
pictures need an extracted image (`extract_images` set and an image
present; a caption does not count), tables a non-empty grid, text
truthy extracted text (non-empty after cleaning when cleaning is on). -/
def dpHasContent (it : DLItem) (ei cl : Bool) : Bool :=
  match it.kind with
  | ItemKind.picture => ei && it.hasImage
  | ItemKind.table =>
    !((if it.tableHeaders.isEmpty then [] else [it.tableHeaders])
      ++ it.tableValues).isEmpty
  | ItemKind.text =>
    !(it.text == "") && (!cl || !(cleanPdfGlyphs it.text == ""))
  | ItemKind.other => false

/-- C6 amended: in document_processor's `_convert_node_item_to_slice`
every emitted slice carries at least one of `content_text`,
`table_data` or a PNG image, and an eligible node without content —
including a captioned picture with no extractable image — yields no
slice; the content_extraction `SliceExtractor.get_model`, by contrast,
builds a slice for every eligible node (see the counterexample). -/
theorem convert_node_item_drop_invariant (it : DLItem) (lvl seq : Nat)
    (ei cl : Bool) :
    (convertNodeItemToSlice it lvl seq ei cl).all sliceHasPayload
      = true ∧
    (convertNodeItemToSlice it lvl seq ei cl).isSome =
      (isEligible it.kind && dpHasContent it ei cl) := by
  cases hk : it.kind with
  | text =>
    by_cases hT : it.text = ""
    · simp [convertNodeItemToSlice, isEligible, dpHasContent, hk,
        extractItemText, hT, pyTruthy, sliceHasPayload]
    · by_cases hcl : cl
      · by_cases hcln : cleanPdfGlyphs it.text = ""
        · simp [convertNodeItemToSlice, isEligible, dpHasContent, hk,
            extractItemText, hT, hcl, hcln, pyTruthy, sliceHasPayload]
        · simp [convertNodeItemToSlice, isEligible, dpHasContent, hk,
            extractItemText, hT, hcl, hcln, pyTruthy, sliceHasPayload]
      · simp only [Bool.not_eq_true] at hcl
        simp [convertNodeItemToSlice, isEligible, dpHasContent, hk,
          extractItemText, hT, hcl, pyTruthy, sliceHasPayload]
  | picture =>
    by_cases him : ei = true ∧ it.hasImage = true
    · simp [convertNodeItemToSlice, isEligible, dpHasContent, hk,
        extractItemPngImage, sliceHasPayload, him, him.1, him.2]
    · have hb : (ei && it.hasImage) = false := by
        cases hei : ei <;> cases hhi : it.hasImage <;> simp_all
      simp [convertNodeItemToSlice, isEligible, dpHasContent, hk,
        extractItemPngImage, sliceHasPayload, him, hb]
  | table =>
    by_cases hH : it.tableHeaders = []
    · cases hV : it.tableValues with
      | nil =>
        simp [convertNodeItemToSlice, isEligible, dpHasContent, hk,
          extractItemTableData, sliceHasPayload, hH, hV]
      | cons v vs =>
        simp [convertNodeItemToSlice, isEligible, dpHasContent, hk,
          extractItemTableData, sliceHasPayload, hH, hV]
    · cases hHs : it.tableHeaders with
      | nil => exact absurd hHs hH
      | cons hh hs =>
        simp [convertNodeItemToSlice, isEligible, dpHasContent, hk,
          extractItemTableData, sliceHasPayload, hHs]
  | other =>
    simp [convertNodeItemToSlice, isEligible, dpHasContent, hk]

/-! ## C9 -/

/-- C9: the slice counter of `get_slices` is initialized from the
supplied offset but never incremented, so on a page with two eligible
nodes both yielded pairs carry the same number (the offset), instead of
consecutive strictly increasing numbers; the content_extraction variant
likewise always yields 1.  Evaluation of the embedded `get_slices` at
the failing input. -/
theorem get_slices_constant_numbering :
    ((getSlicesB docTwoTexts 1 1).map Prod.fst = [1, 1]) ∧
    ((getSlicesB docTwoTexts 1 5).map Prod.fst = [5, 5]) ∧
    ((getSlicesB docTwoTexts 1 5).map fun sp => sp.2.sliceNum)
      = [5, 5] ∧
    ((getSlicesB docTwoTexts 1 1).length = 2) ∧
    ((getSlicesA docTwoTexts 1).map Prod.fst = [1, 1]) := by decide

/-! ## C10 -/

/-- C10: for a text-kind node whose raw text is non-empty but consists
entirely of glyph-artifact tokens and horizontal whitespace,
`get_content_text` returns `some ""` (the empty string, not absence),
`has_text_slices` still reports the page as text-bearing (it tests the
raw, pre-normalization text), and in HYBRID mode the page is accepted
from the fast stage after one converter invocation — the full-OCR
fallback is not triggered. -/
theorem glyph_only_text_page_no_fallback
    (it : DLItem) (lvl : Nat) (d : DLDoc) (fullO : ConvOutcome)
    (p n : Nat)
    (hk : it.kind = ItemKind.text)
    (hne : it.text ≠ "")
    (htb : TokensAndBlanks it.text.data)
    (hmem : (it, lvl) ∈ d.items)
    (hpage : it.pageNo = p)
    (hp : p ∈ d.pages) :
    getContentText it = some "" ∧
    hasTextSlices d p = true ∧
    extractPage OcrPipeline.hybrid (ConvOutcome.doc d) fullO p n =
      (Except.ok (some ⟨d, p, n⟩), 1) := by
  have hclean : cleanPdfGlyphs it.text = "" := by
    show String.mk (cleanList it.text.data) = ""
    rw [cleanList_eq_nil_of_tb htb]
  have h1 : getContentText it = some "" := by
    simp [getContentText, hk, hne, hclean]
  have h2 : hasTextSlices d p = true := by
    rw [hasTextSlices, List.any_eq_true]
    refine ⟨(it, lvl), ?_, ?_⟩
    · rw [iterateItems, List.mem_filter]
      exact ⟨hmem, by simp [hpage]⟩
    · simp [isEligible, hk, hne]
  refine ⟨h1, h2, ?_⟩
  unfold extractPage
  rw [loadDlConverters_hybrid, extractPageGo_doc, if_pos hp, h2]
  rfl

/-- A text item whose raw text is a glyph token plus horizontal
whitespace. -/
def itemGlyphOnly : DLItem :=
  { kind := ItemKind.text, pageNo := 1, text := "glyph<1> \t"
    caption := "", tableHeaders := [], tableValues := []
    hasImage := false, selfRef := "#/texts/0"
    parentRef := some "#/body", label := "text" }

/-- A document whose page 1 carries only that item. -/
def docGlyphOnly : DLDoc := { pages := [1], items := [(itemGlyphOnly, 1)] }

theorem glyph_only_text_page_no_fallback_witness :
    getContentText itemGlyphOnly = some "" ∧
    hasTextSlices docGlyphOnly 1 = true ∧
    extractPage OcrPipeline.hybrid (ConvOutcome.doc docGlyphOnly)
        ConvOutcome.noDoc 1 1 =
      (Except.ok (some ⟨docGlyphOnly, 1, 1⟩), 1) := by
  have htok : TokShape ("glyph<1>".data) :=
    tokShape_of_match (by decide)
  have htb0 : TokensAndBlanks ("glyph<1>".data ++ [' ', '\t']) :=
    TokensAndBlanks.tok htok
      (TokensAndBlanks.blank (by decide)
        (TokensAndBlanks.blank (by decide) TokensAndBlanks.nil))
  have hdata : itemGlyphOnly.text.data = "glyph<1>".data ++ [' ', '\t'] :=
    by decide
  exact glyph_only_text_page_no_fallback itemGlyphOnly 1 docGlyphOnly
    ConvOutcome.noDoc 1 1 rfl (by decide) (hdata ▸ htb0) (by decide)
    rfl (by decide)

/-! ## C1 -/

lemma pageSlicesFrom_map (b : Bool) :
    ∀ (L : List (Nat × (DLItem × Nat))) (n : Nat),
    ((pageSlicesFrom b n L).map fun s => s.sliceNo) =
      List.range' n L.length := by
  intro L
  induction L with
  | nil => intro n; rfl
  | cons hd rest ih =>
    intro n
    obtain ⟨k, it, lvl⟩ := hd
    simp only [pageSlicesFrom, List.map_cons, List.length_cons, ih (n + 1)]
    rfl

lemma pageGetModel_slices_map (d : DLDoc) (p n : Nat) (b : Bool) :
    ((pageGetModel d p n b).slices.map fun s => s.sliceNo) =
      List.range' n ((pageGetModel d p n b).slices.length) := by
  show ((pageSlicesFrom b n (getSlicesA d p)).map fun s => s.sliceNo) = _
  rw [pageSlicesFrom_map]
  congr 1
  have := congrArg List.length (pageSlicesFrom_map b (getSlicesA d p) n)
  simpa using this.symm

lemma range'_pairwise_lt : ∀ (n s : Nat),
    (List.range' s n).Pairwise (· < ·) := by
  intro n
  induction n with
  | zero => intro s; exact List.Pairwise.nil
  | succ n ih =>
    intro s
    have : List.range' s (n + 1) = s :: List.range' (s + 1) n := rfl
    rw [this]
    refine List.Pairwise.cons ?_ (ih (s + 1))
    intro m hm
    have := (List.mem_range'_1.mp hm).1
    omega

lemma extractPagesModelGo_numbering (conv : Bool → Nat → ConvOutcome)
    (incl : Bool) : ∀ (ps : List Nat) (n : Nat) (pages : List Page),
    extractPagesModelGo conv incl ps n = Except.ok pages →
    ((pages.flatMap fun pg => pg.slices).map fun s => s.sliceNo) =
      List.range' n ((pages.flatMap fun pg => pg.slices).length) := by
  intro ps
  induction ps with
  | nil =>
    intro n pages h
    simp only [extractPagesModelGo] at h
    injection h with h
    subst h
    rfl
  | cons p ps ih =>
    intro n pages h
    simp only [extractPagesModelGo] at h
    cases hx : extractPageA (conv false p) (conv true p) p with
    | error e =>
      rw [hx] at h
      exact absurd h (by simp)
    | ok od =>
      cases od with
      | none =>
        rw [hx] at h
        exact ih n pages h
      | some d =>
        rw [hx] at h
        dsimp only at h
        cases hy : extractPagesModelGo conv incl ps
            (n + (pageGetModel d p n incl).slices.length) with
        | error e =>
          rw [hy] at h
          exact absurd h (by simp)
        | ok rest =>
          rw [hy] at h
          injection h with h
          subst h
          have hrest := ih _ _ hy
          simp only [List.flatMap_cons, List.map_append,
            List.length_append]
          rw [pageGetModel_slices_map, hrest]
          have h2 := List.range'_append n
            ((pageGetModel d p n incl).slices.length)
            ((rest.flatMap fun pg => pg.slices).length) 1
          simp only [one_mul, Nat.mul_one] at h2
          rw [Nat.add_comm ((pageGetModel d p n incl).slices.length)
            ((rest.flatMap fun pg => pg.slices).length)]
          exact h2

/-- C1: whenever `extract_pages_model` completes, the `slice_no` values
of the slices across all returned pages, read in output order, form
exactly the consecutive sequence 1, 2, 3, … — so they are strictly
increasing and pairwise distinct over the whole document, and the first
slice of each page continues from the count of all slices of the
previous pages. -/
theorem extract_pages_model_slice_numbering
    (conv : Bool → Nat → ConvOutcome) (firstPage lastPage : Nat)
    (incl : Bool) (pages : List Page)
    (h : extractPagesModelA conv firstPage lastPage incl =
      Except.ok pages) :
    (((pages.flatMap fun pg => pg.slices).map fun s => s.sliceNo) =
      List.range' 1 ((pages.flatMap fun pg => pg.slices).length)) ∧
    ((pages.flatMap fun pg => pg.slices).map fun s =>
      s.sliceNo).Pairwise (· < ·) ∧
    ((pages.flatMap fun pg => pg.slices).map fun s =>
      s.sliceNo).Nodup := by
  have h1 := extractPagesModelGo_numbering conv incl _ 1 pages h
  refine ⟨h1, ?_, ?_⟩
  · rw [h1]; exact range'_pairwise_lt _ 1
  · rw [h1]
    exact (range'_pairwise_lt _ 1).imp Nat.ne_of_lt

/-- The converter behaviour used by the C1 witness: every conversion
returns the one-text-item document. -/
def convW : Bool → Nat → ConvOutcome := fun _ _ => ConvOutcome.doc docTextW

/-- The pages `extract_pages_model` produces for the C1 witness. -/
def pagesW : List Page :=
  [{ pageNo := 1
     slices := [{ sliceNo := 1, level := 1, ref := "#/texts/0"
                  parentRef := some "#/body", label := "text"
                  contentText := some "hello", captionText := none
                  tableData := none, screenshot := false }] }]

theorem extract_pages_model_slice_numbering_witness :
    (((pagesW.flatMap fun pg => pg.slices).map fun s => s.sliceNo) =
      List.range' 1 ((pagesW.flatMap fun pg => pg.slices).length)) ∧
    ((pagesW.flatMap fun pg => pg.slices).map fun s =>
      s.sliceNo).Pairwise (· < ·) ∧
    ((pagesW.flatMap fun pg => pg.slices).map fun s =>
      s.sliceNo).Nodup :=
  extract_pages_model_slice_numbering convW 1 1 true pagesW (by decide)

/-! ## C7 -/

/-- C7: the text normalizer is idempotent — applying
`clean_pdf_glyphs` twice yields the same string as applying it once,
for every input string. -/
theorem clean_pdf_glyphs_idempotent (s : String) :
    cleanPdfGlyphs (cleanPdfGlyphs s) = cleanPdfGlyphs s :=
  congrArg String.mk (cleanList_idem s.data)

/-! ## C8 -/

/-- C8 counterexample: on the input `"glyph<1>\nab"` the newline sits in
the interior of the input (its first character `g` and last character
`b` are non-whitespace), yet the normalized output `"ab"` contains no
newline: removing the leading glyph token leaves the newline in leading
whitespace, which the final trim strips. -/
theorem interior_newline_dropped :
    cleanPdfGlyphs "glyph<1>\nab" = "ab" ∧
    nlCount ("glyph<1>\nab".data) = 1 ∧
    nlCount ((cleanPdfGlyphs "glyph<1>\nab").data) = 0 ∧
    ("glyph<1>\nab".data.head? = some 'g') ∧
    ("glyph<1>\nab".data.getLast? = some 'b') ∧
    isWsA 'g' = false ∧ isWsA 'b' = false := by decide

/-- C8 amended: for every input string the normalized output contains
no substring matching the glyph pattern, contains no tab and no two
adjacent blanks (space/tab runs are collapsed to one space), and is
unchanged by a further strip (no leading or trailing whitespace);
newlines are preserved by the artifact-substitution step and by the
blank-collapsing step, so a newline can be lost only to the final
leading/trailing trim of the artifact-stripped text. -/
theorem clean_pdf_glyphs_output_form (s : String) :
    ¬ HasTok (cleanPdfGlyphs s).data ∧
    (∀ a ∈ (cleanPdfGlyphs s).data, isTabA a = false) ∧
    ((cleanPdfGlyphs s).data.Chain' fun a b =>
      isBlankA a = false ∨ isBlankA b = false) ∧
    pyStrip (cleanPdfGlyphs s).data = (cleanPdfGlyphs s).data ∧
    nlCount (glyphSub s.data) = nlCount s.data ∧
    (∀ z, nlCount (collapseBlanks z) = nlCount z) ∧
    (cleanPdfGlyphs s).data = pyStrip (collapseBlanks (glyphSub s.data)) :=
  ⟨cleanList_noTok s.data, (cleanList_good s.data).1,
    (cleanList_good s.data).2, cleanList_pyStrip s.data,
    glyphSub_nlCount s.data, collapse_nlCount, rfl⟩

end DocProc
